import Mathlib

/-
Verification of the content-extraction and text-sanitisation pipeline of the
news-extract-api service (src/app/routers/extract.py), as a shallow embedding:
strings become `List Char`, the router's helper functions become Lean
functions, and the endpoint's control flow becomes a pure function from the
outcome of the upstream fetch and the behaviour of the external extractor to
an `Except`-typed response.
-/

set_option maxRecDepth 100000

/- Unicode whitespace, as matched by Python's str.strip()/str.isspace() and by
the regex class \s on str patterns (the two sets coincide on every character
appearing in this development). -/
def isPySpace (c : Char) : Bool :=
  c.toNat == 0x20 || c.toNat == 0x09 || c.toNat == 0x0a || c.toNat == 0x0d ||
  c.toNat == 0x0b || c.toNat == 0x0c ||
  (0x1c ≤ c.toNat && c.toNat ≤ 0x1f) ||
  c.toNat == 0x85 || c.toNat == 0xa0 || c.toNat == 0x1680 ||
  (0x2000 ≤ c.toNat && c.toNat ≤ 0x200a) ||
  c.toNat == 0x2028 || c.toNat == 0x2029 ||
  c.toNat == 0x202f || c.toNat == 0x205f || c.toNat == 0x3000

/- The line-boundary characters of Python's str.splitlines. -/
def isLineBoundary (c : Char) : Bool :=
  c.toNat == 0x0a || c.toNat == 0x0d ||
  c.toNat == 0x0b || c.toNat == 0x0c ||
  c.toNat == 0x1c || c.toNat == 0x1d || c.toNat == 0x1e ||
  c.toNat == 0x85 || c.toNat == 0x2028 || c.toNat == 0x2029

/- Python str.lstrip() -/
def pyLstrip (l : List Char) : List Char :=
  List.dropWhile isPySpace l

/- Python str.rstrip() -/
def pyRstrip (l : List Char) : List Char :=
  (List.dropWhile isPySpace l.reverse).reverse

/- Python str.strip() -/
def pyStrip (l : List Char) : List Char :=
  pyLstrip (pyRstrip l)

/- Python str.lstrip(chars): drop leading characters belonging to the set. -/
def pyLstripSet (set : List Char) (l : List Char) : List Char :=
  List.dropWhile (fun c => set.contains c) l

/- First step of Python s.replace (the crlf case of normalize_newlines):
replace each occurrence of "\r\n", scanning left to right.  `afterCR` holds a
pending carriage return whose follower has not been seen yet. -/
def replCRLFGo (afterCR : Bool) : List Char → List Char
  | [] => if afterCR then ['\r'] else []
  | c :: rest =>
    if afterCR then
      if c = '\n' then '\n' :: replCRLFGo false rest
      else if c = '\r' then '\r' :: replCRLFGo true rest
      else '\r' :: c :: replCRLFGo false rest
    else
      if c = '\r' then replCRLFGo true rest
      else c :: replCRLFGo false rest

def replCRLF (l : List Char) : List Char :=
  replCRLFGo false l

/- normalize_newlines from extract.py: CRLF and CR to LF, tabs to spaces
(three sequential str.replace calls). -/
def normalize_newlines (text : List Char) : List Char :=
  ((replCRLF text).map (fun c => if c == '\r' then '\n' else c)).map
    (fun c => if c == '\t' then ' ' else c)

/- Python str.splitlines, accumulator-passing worker.  `cur` holds the
characters of the current line in reverse; `afterCR` records that the previous
character was a carriage return, so that "\r\n" counts as a single boundary.
A final boundary does not open an extra empty line. -/
def pySplitlinesGo (afterCR : Bool) (cur : List Char) :
    List Char → List (List Char)
  | [] => if cur.isEmpty then [] else [cur.reverse]
  | c :: rest =>
    if afterCR && c = '\n' then pySplitlinesGo false cur rest
    else if c = '\r' then cur.reverse :: pySplitlinesGo true [] rest
    else if isLineBoundary c then cur.reverse :: pySplitlinesGo false [] rest
    else pySplitlinesGo false (c :: cur) rest

def pySplitlines (l : List Char) : List (List Char) :=
  pySplitlinesGo false [] l

/- Python "\n".join(lines). -/
def joinNl : List (List Char) → List Char
  | [] => []
  | [l] => l
  | l1 :: l2 :: t => l1 ++ '\n' :: joinNl (l2 :: t)

/- Python text.split(sep, 1): locate the first occurrence of `sep` and return
the pieces before and after it, or none when `sep` does not occur. -/
def splitFirst (sep : List Char) : List Char → Option (List Char × List Char)
  | [] => if sep.isEmpty then some ([], []) else none
  | c :: rest =>
    if List.isPrefixOf sep (c :: rest) then some ([], (c :: rest).drop sep.length)
    else (splitFirst sep rest).map (fun p => (c :: p.1, p.2))

/- Worker for the re.sub models: maps a function over the maximal runs of
characters satisfying `p`, keeping everything else.  `acc` holds the current
run in reverse. -/
def subRunsGo (p : Char → Bool) (f : List Char → List Char) :
    List Char → List Char → List Char
  | acc, [] => f acc.reverse
  | acc, c :: cs =>
    if p c then subRunsGo p f (c :: acc) cs
    else f acc.reverse ++ c :: subRunsGo p f [] cs

def subRuns (p : Char → Bool) (f : List Char → List Char) (l : List Char) :
    List Char :=
  subRunsGo p f [] l

/- re.sub(r"\s*\n\s*", " ", s): each maximal whitespace run containing a
newline collapses to a single space (the leftmost-longest match of that
pattern is exactly such a run). -/
def subNlRunToSpace (l : List Char) : List Char :=
  subRuns isPySpace (fun r => if r.contains '\n' then [' '] else r) l

/- re.sub(r"\s{2,}", " ", s): each maximal whitespace run of length at least
two collapses to a single space. -/
def subWsRunToSpace (l : List Char) : List Char :=
  subRuns isPySpace (fun r => if 2 ≤ r.length then [' '] else r) l

/- re.sub(r"\n{3,}", "\n\n", s): each maximal newline run of length at least
three collapses to exactly two newlines. -/
def subNl3ToNl2 (l : List Char) : List Char :=
  subRuns (fun c => c == '\n') (fun r => if 3 ≤ r.length then ['\n', '\n'] else r) l

/- collapse_newlines_to_spaces from extract.py. -/
def collapse_newlines_to_spaces (s : List Char) : List Char :=
  pyStrip (subWsRunToSpace (subNlRunToSpace s))

/- ---------------------------------------------------------------------
Regex model.  Every SAFE_NOISE_PATTERN is anchored (`^...$`, applied with
re.match to single lines that contain no newline), so only the existence of
a parse of the whole line matters; greedy/lazy distinctions are irrelevant.
A matcher maps an input suffix to the list of possible remainder suffixes.
--------------------------------------------------------------------- -/

def Matcher : Type := List Char → List (List Char)

def mSeq (m1 m2 : Matcher) : Matcher := fun cs => (m1 cs).flatMap m2

def mSeqs : List Matcher → Matcher
  | [] => fun cs => [cs]
  | m :: ms => mSeq m (mSeqs ms)

def mAlt (m1 m2 : Matcher) : Matcher := fun cs => m1 cs ++ m2 cs

/- single character of a class -/
def mCls (p : Char → Bool) : Matcher := fun cs =>
  match cs with
  | [] => []
  | c :: rest => if p c then [rest] else []

def mChar (d : Char) : Matcher := mCls (fun c => c == d)

/- class* : remainders after dropping 0.. leading class characters -/
def mClsStarDrops (p : Char → Bool) : List Char → List (List Char)
  | [] => [[]]
  | c :: rest => (c :: rest) :: (if p c then mClsStarDrops p rest else [])

def mClsStar (p : Char → Bool) : Matcher := fun cs => mClsStarDrops p cs

def mClsPlus (p : Char → Bool) : Matcher := mSeq (mCls p) (mClsStar p)

def mOpt (m : Matcher) : Matcher := fun cs => cs :: m cs

/- class{0,n} -/
def mBounded (p : Char → Bool) : Nat → Matcher
  | 0 => fun cs => [cs]
  | n + 1 => fun cs =>
    match cs with
    | [] => [[]]
    | c :: rest => (c :: rest) :: (if p c then mBounded p n rest else [])

/- case-insensitive literal (re.IGNORECASE is set on every pattern) -/
def ciEq (a b : Char) : Bool := a.toLower == b.toLower

def mLitCI : List Char → Matcher
  | [] => fun cs => [cs]
  | d :: ds => fun cs =>
    match cs with
    | [] => []
    | c :: rest => if ciEq c d then mLitCI ds rest else []

/- (group)* with fuel; every group used here consumes at least one character,
so fuel = input length is exhaustive. -/
def mStarFuel (step : Matcher) : Nat → Matcher
  | 0 => fun cs => [cs]
  | n + 1 => fun cs =>
    cs :: (step cs).flatMap
      (fun cs2 => if cs2.length < cs.length then mStarFuel step n cs2 else [])

def mStar (step : Matcher) : Matcher := fun cs => mStarFuel step cs.length cs

/- \b directly after a word character: next char is a non-word char or end -/
def isLatinLetter (c : Char) : Bool :=
  (0x41 ≤ c.toNat && c.toNat ≤ 0x5a) || (0x61 ≤ c.toNat && c.toNat ≤ 0x7a)

def isHangulSyllable (c : Char) : Bool :=
  0xAC00 ≤ c.toNat && c.toNat ≤ 0xD7A3

def isHangulCompatJamo (c : Char) : Bool :=
  0x3131 ≤ c.toNat && c.toNat ≤ 0x318E

/- Python \w (word character), modelled as ASCII alphanumerics, underscore and
the Korean ranges relevant to these patterns. -/
def isPyWord (c : Char) : Bool :=
  c.isAlphanum || c == '_' || isHangulSyllable c || isHangulCompatJamo c

def mNoWordAhead : Matcher := fun cs =>
  match cs with
  | [] => [[]]
  | c :: _ => if isPyWord c then [] else [cs]

def mFullMatch (m : Matcher) (l : List Char) : Bool :=
  (m l).any List.isEmpty

def wsS : Matcher := mClsStar isPySpace

def wsP : Matcher := mClsPlus isPySpace

def nonSp (c : Char) : Bool := !isPySpace c

def notNl (c : Char) : Bool := !(c == '\n')

/- \S+@\S+ -/
def mEmail : Matcher := mSeqs [mClsPlus nonSp, mChar '@', mClsPlus nonSp]

def alphaKor (c : Char) : Bool := isLatinLetter c || isHangulSyllable c

def brandChar (c : Char) : Bool :=
  isPyWord c || c == '-' || c == '.' || isHangulCompatJamo c ||
  isHangulSyllable c || c == ' '

/- The ten SAFE_NOISE_PATTERNS of extract.py, in order. -/
def rx1 : Matcher := mSeqs [wsS, mLitCI ("무단".data), wsS, mLitCI ("전재".data),
  wsS, mOpt (mCls (fun c => c == '·' || c == ',')), wsS, mLitCI ("재배포".data),
  wsS, mLitCI ("금지".data), wsS, mOpt (mChar '.'), wsS]

def rx2 : Matcher := mSeqs [wsS, mLitCI ("All".data), wsP, mLitCI ("rights".data),
  wsP, mLitCI ("reserved".data), mOpt (mChar '.'), wsS]

def rx3 : Matcher := mSeqs [wsS, mLitCI ("Copyright".data), mNoWordAhead,
  mBounded notNl 200, mLitCI ("All".data), wsP, mLitCI ("rights".data), wsP,
  mLitCI ("reserved".data), mOpt (mChar '.'), wsS]

def rx4 : Matcher := mSeqs [wsS, mAlt (mLitCI ("문의".data)) (mLitCI ("Contact".data)),
  wsS, mChar ':', wsS, mEmail, wsS]

def rx5 : Matcher := mSeqs [wsS, mClsPlus alphaKor,
  mStar (mSeq wsP (mClsPlus alphaKor)), wsS, mLitCI ("기자".data), wsS,
  mOpt (mChar ':'), wsS, mEmail, wsS]

def rx6 : Matcher := mSeqs [wsS, mLitCI ("제보".data), wsS, mChar ':', wsS, mEmail, wsS]

def rx7 : Matcher := mSeqs [wsS, mEmail, wsS]

def rx8 : Matcher := mSeqs [wsS, mOpt (mChar '['), wsS, mEmail, wsS,
  mOpt (mChar ']'), wsS, mChar '(', wsS, mLitCI ("mailto".data), wsS, mChar ':',
  wsS, mEmail, wsS, mChar ')', wsS]

def rx9 : Matcher := mSeqs [wsS, mClsPlus notNl, wsP, mOpt (mChar '['), wsS,
  mEmail, wsS, mOpt (mChar ']'), wsS, mChar '(', wsS, mLitCI ("mailto".data),
  wsS, mChar ':', wsS, mEmail, wsS, mChar ')', wsS]

def rx10 : Matcher := mSeqs [wsS, mClsPlus brandChar, wsP, mEmail, wsS]

def SAFE_REGEXES : List Matcher := [rx1, rx2, rx3, rx4, rx5, rx6, rx7, rx8, rx9, rx10]

/- any(rx.match(line) for rx in SAFE_REGEXES) -/
def matchesNoise (l : List Char) : Bool :=
  SAFE_REGEXES.any (fun m => mFullMatch m l)

/- The per-line step of remove_noise_lines_safe_only: rstrip the raw line;
keep lines longer than 5000 characters without consulting the patterns;
otherwise drop the line exactly when a pattern matches it. -/
def cleanLine (raw : List Char) : Option (List Char) :=
  let line := pyRstrip raw
  if 5000 < line.length then some line
  else if matchesNoise line then none
  else some line

/- remove_noise_lines_safe_only from extract.py. -/
def remove_noise_lines_safe_only (text : List Char) : List Char :=
  let t := normalize_newlines text
  subNl3ToNl2 (joinNl ((pySplitlines t).filterMap cleanLine))

/- ---------------------------------------------------------------------
Front matter.
--------------------------------------------------------------------- -/

inductive Yaml where
  | null : Yaml
  | str : List Char → Yaml
  | map : List (List Char × Yaml) → Yaml
  | seq : List Yaml → Yaml

/- Python truthiness of a parsed YAML value (None, "", {}, [] are falsy). -/
def yamlTruthy : Yaml → Bool
  | .null => false
  | .str s => !s.isEmpty
  | .map kvs => !kvs.isEmpty
  | .seq xs => !xs.isEmpty

/- Plain split on the newline character, keeping empty pieces. -/
def splitNlAll : List Char → List (List Char)
  | [] => [[]]
  | c :: rest =>
    if c = '\n' then [] :: splitNlAll rest
    else
      match splitNlAll rest with
      | [] => [[c]]
      | l :: ls => (c :: l) :: ls

def yamlSpecialWords : List (List Char) :=
  ["true".data, "false".data, "yes".data, "no".data, "on".data, "off".data,
   "null".data]

/- A scalar that YAML reads back as exactly this string: nonempty, purely
ASCII-alphabetic, and not one of the words the resolver turns into
bool/null. -/
def plainScalar (s : List Char) : Bool :=
  !s.isEmpty && s.all isLatinLetter &&
  !(yamlSpecialWords.contains (s.map Char.toLower))

def yamlParseLine (l : List Char) : Option (List Char × Yaml) :=
  match splitFirst (": ".data) l with
  | some p => if plainScalar p.1 && plainScalar p.2 then some (p.1, Yaml.str p.2) else none
  | none => none

def allSome : List (Option α) → Option (List α)
  | [] => some []
  | none :: _ => none
  | some a :: rest => (allSome rest).map (fun l => a :: l)

/-- Modelled from the spec: the repository hands the front-matter block to the
external YAML parser (yaml.safe_load), which is not part of the repository's
sources.  The spec describes it as parsing "a structured key-value mapping",
and the library in fact returns whatever document the block encodes: None for
a blank block, a dict for `key: value` lines, a plain string for a bare
scalar, and it raises on malformed input.  This model covers exactly that
fragment for plain alphabetic scalars and treats everything else as a parse
failure. -/
def yaml_safe_load (block : List Char) : Except Unit Yaml :=
  let lines := (splitNlAll block).filter (fun l => !(List.all l isPySpace))
  match lines with
  | [] => .ok .null
  | [l] =>
    match yamlParseLine l with
    | some kv => .ok (.map [kv])
    | none =>
      if plainScalar (pyStrip l) then .ok (.str (pyStrip l)) else .error ()
  | _ =>
    match allSome (lines.map yamlParseLine) with
    | some kvs => .ok (.map kvs)
    | none => .error ()

/- strip_and_parse_front_matter from extract.py: if the text starts with
"---", split once on "\n---\n"; when the delimiter is found, lstrip the
leading hyphens/newlines off the first part, feed it to the YAML parser
(falling back to an empty dict on a falsy result or a parse error), and
return the second part as the body. -/
def strip_and_parse_front_matter (text : List Char) : List Char × Yaml :=
  if List.isPrefixOf ("---".data) text then
    match splitFirst ("\n---\n".data) text with
    | some p =>
      let fm_block := pyLstripSet ['-', '\n'] p.1
      let fm := match yaml_safe_load fm_block with
        | .ok v => if yamlTruthy v then v else .map []
        | .error _ => .map []
      (p.2, fm)
    | none => (text, .map [])
  else (text, .map [])

/- ---------------------------------------------------------------------
The endpoint.  The upstream fetch, the content extractor and the metadata
extractor are external collaborators; the endpoint is modelled as a pure
function of their behaviour.
--------------------------------------------------------------------- -/

/- The keyword arguments of trafilatura.extract that the router touches.
Fields, in order: include_comments, include_tables, fast, with_metadata. -/
structure ExtractArgs where
  include_comments : Bool
  include_tables : Bool
  fast : Bool
  with_metadata : Bool

/-- The first extractor call in extract.py:
extract(html, include_comments=False, include_tables=False, fast=True,
with_metadata=True). -/
def fastCallArgs : ExtractArgs := ⟨false, false, true, true⟩

/-- The retry call in extract.py: extract(html, fast=False, with_metadata=True).
include_comments and include_tables are not passed, so the library defaults
apply; trafilatura documents both defaults as True. -/
def retryCallArgs : ExtractArgs := ⟨true, true, false, true⟩

/- Python truthiness of an Optional[str]: None and "" are falsy. -/
def optTextTruthy : Option (List Char) → Bool
  | none => false
  | some t => !t.isEmpty

/- Step 2 of the endpoint: first attempt with fastCallArgs; on a falsy result
retry once with retryCallArgs; if that is falsy too, HTTP 422. -/
def orchestrateExtract (e : List Char → ExtractArgs → Option (List Char))
    (html : List Char) : Except Nat (List Char) :=
  match e html fastCallArgs with
  | some t =>
    if t.isEmpty then
      match e html retryCallArgs with
      | some t2 => if t2.isEmpty then .error 422 else .ok t2
      | none => .error 422
    else .ok t
  | none =>
    match e html retryCallArgs with
    | some t2 => if t2.isEmpty then .error 422 else .ok t2
    | none => .error 422

/- The fields of trafilatura.extract_metadata(...).as_dict() that the router
reads. -/
structure HtmlMeta where
  title : Option (List Char)
  date : Option (List Char)
  sitename : Option (List Char)
  hostname : Option (List Char)

/- Outcome of the httpx fetch: a success body, an HTTPStatusError carrying the
upstream status (raise_for_status on a non-success response), or a
RequestError (timeout / connection / DNS failure). -/
inductive FetchOutcome where
  | success : List Char → FetchOutcome
  | statusError : Nat → FetchOutcome
  | requestError : FetchOutcome

inductive EndpointError where
  | http : Nat → EndpointError
  | pythonError : EndpointError

/- Python fm.get(key): only a dict has .get; on any other parsed YAML value
the attribute lookup raises AttributeError (modelled as .error). -/
def fmGet (fm : Yaml) (k : List Char) : Except Unit (Option Yaml) :=
  match fm with
  | .map kvs => .ok ((kvs.find? (fun kv => kv.1 == k)).map (fun kv => kv.2))
  | _ => .error ()

def optYamlTruthy : Option Yaml → Bool
  | none => false
  | some v => yamlTruthy v

/- a or fm.get(k): Python's short-circuiting `or` — fm.get(k) is only
evaluated (and can only raise) when `a` is falsy. -/
def orFmGet (a : Option Yaml) (fm : Yaml) (k : List Char) :
    Except Unit (Option Yaml) :=
  if optYamlTruthy a then .ok a else fmGet fm k

/- Steps 6-7 of the endpoint: title = md.get("title");
published_at = md.get("date") or fm.get("date") or fm.get("published_at");
site = md.get("sitename") or fm.get("site") or md.get("hostname"). -/
def merge_metadata (md : Option HtmlMeta) (fm : Yaml) :
    Except Unit (Option (List Char) × Option Yaml × Option Yaml) :=
  match orFmGet ((md.bind HtmlMeta.date).map Yaml.str) fm ("date".data) with
  | .error u => .error u
  | .ok pub1 =>
    match orFmGet pub1 fm ("published_at".data) with
    | .error u => .error u
    | .ok published_at =>
      match orFmGet ((md.bind HtmlMeta.sitename).map Yaml.str) fm ("site".data) with
      | .error u => .error u
      | .ok site1 =>
        .ok (md.bind HtmlMeta.title, published_at,
          if optYamlTruthy site1 then site1
          else (md.bind HtmlMeta.hostname).map Yaml.str)

/- The response model ExtractOut (meta flattened into its three fields). -/
structure ExtractOut where
  title : Option (List Char)
  text : List Char
  source : List Char
  published_at : Option Yaml
  site : Option Yaml

/- extract_endpoint from extract.py.  `fetch` is the outcome of the httpx GET,
`e` the content extractor, `meta` the metadata extractor (None when
extract_metadata returns nothing usable), `url` the validated request URL and
`trim_newlines` the query flag. -/
def extract_endpoint (fetch : FetchOutcome)
    (e : List Char → ExtractArgs → Option (List Char))
    (meta : List Char → Option HtmlMeta)
    (url : List Char) (trim_newlines : Bool) : Except EndpointError ExtractOut :=
  match fetch with
  | .statusError code => .error (.http code)
  | .requestError => .error (.http 504)
  | .success html =>
    match orchestrateExtract e html with
    | .error code => .error (.http code)
    | .ok text0 =>
      let sp := strip_and_parse_front_matter text0
      let text1 := remove_noise_lines_safe_only sp.1
      let final_text := if trim_newlines then collapse_newlines_to_spaces text1 else text1
      match merge_metadata (meta html) sp.2 with
      | .error _ => .error .pythonError
      | .ok m => .ok ⟨m.1, final_text, url, m.2.1, m.2.2⟩

/- ---------------------------------------------------------------------
Auxiliary notions used by the statements and proofs.
--------------------------------------------------------------------- -/

/- Remove one final newline, if any. -/
def dropFinalNl (l : List Char) : List Char :=
  if l.getLast? = some '\n' then l.dropLast else l

/- `noRunGeGo p k n l`: scanning `l` with a current run of `n` characters
satisfying `p` already behind us, no run of `p`-characters ever reaches
length `k`. -/
def noRunGeGo (p : Char → Bool) (k : Nat) : Nat → List Char → Bool
  | _, [] => true
  | n, c :: rest =>
    if p c then decide (n + 1 < k) && noRunGeGo p k (n + 1) rest
    else noRunGeGo p k 0 rest

/- No `k` consecutive characters of `l` all satisfy `p`. -/
def noRunGe (p : Char → Bool) (k : Nat) (l : List Char) : Bool :=
  noRunGeGo p k 0 l

/- Every line-boundary character is a plain newline (in particular there is
no carriage return). -/
def nlBound (l : List Char) : Bool :=
  l.all (fun c => c == '\n' || !isLineBoundary c)

/- What str.splitlines recovers from "\n".join(lines): the list itself,
minus a last empty line. -/
def trimLastEmpty (L : List (List Char)) : List (List Char) :=
  match L.getLast? with
  | some [] => L.dropLast
  | _ => L

/- The lines the filter keeps: rstripped, and only dropped if a pattern
matched.  `cleanedOf x` is the kept-lines list of the filter on input x. -/
def cleanedOf (x : List Char) : List (List Char) :=
  (pySplitlines (normalize_newlines x)).filterMap cleanLine

def fmLookup (kvs : List (List Char × Yaml)) (k : List Char) : Option Yaml :=
  (kvs.find? (fun kv => kv.1 == k)).map (fun kv => kv.2)

/- Python `a or b` on two optional values (None and falsy values fall
through). -/
def pyOr (a b : Option Yaml) : Option Yaml := if optYamlTruthy a then a else b

def longLineA : List Char := List.replicate 5001 'a' ++ [' ']

def paddedEmailLine : List Char := "foo@bar.com".data ++ List.replicate 5000 ' '

/- ---------------------------------------------------------------------
Basic lemmas about the string primitives.
--------------------------------------------------------------------- -/

theorem not_lineBoundary_ne_cr {c : Char} (h : isLineBoundary c = false) :
    c ≠ '\r' := by
  intro hc
  subst hc
  simp [isLineBoundary] at h

theorem splitGo_nil (cur : List Char) :
    pySplitlinesGo false cur [] = if cur.isEmpty then [] else [cur.reverse] := rfl

theorem splitGo_nl (cur r : List Char) :
    pySplitlinesGo false cur ('\n' :: r) =
      cur.reverse :: pySplitlinesGo false [] r := rfl

theorem splitGo_nonb {c : Char} (h : isLineBoundary c = false)
    (cur r : List Char) :
    pySplitlinesGo false cur (c :: r) = pySplitlinesGo false (c :: cur) r := by
  have hcr : c ≠ '\r' := not_lineBoundary_ne_cr h
  simp [pySplitlinesGo, h, hcr]

theorem subRunsGo_nil (p : Char → Bool) (f : List Char → List Char)
    (acc : List Char) : subRunsGo p f acc [] = f acc.reverse := rfl

theorem subRunsGo_pos {p : Char → Bool} {c : Char} (h : p c = true)
    (f : List Char → List Char) (acc cs : List Char) :
    subRunsGo p f acc (c :: cs) = subRunsGo p f (c :: acc) cs := by
  simp [subRunsGo, h]

theorem subRunsGo_neg {p : Char → Bool} {c : Char} (h : p c = false)
    (f : List Char → List Char) (acc cs : List Char) :
    subRunsGo p f acc (c :: cs) =
      f acc.reverse ++ c :: subRunsGo p f [] cs := by
  simp [subRunsGo, h]

theorem noRunGeGo_pos {p : Char → Bool} {c : Char} (h : p c = true)
    (k n : Nat) (r : List Char) :
    noRunGeGo p k n (c :: r) =
      (decide (n + 1 < k) && noRunGeGo p k (n + 1) r) := by
  simp [noRunGeGo, h]

theorem noRunGeGo_neg {p : Char → Bool} {c : Char} (h : p c = false)
    (k n : Nat) (r : List Char) :
    noRunGeGo p k n (c :: r) = noRunGeGo p k 0 r := by
  simp [noRunGeGo, h]

theorem noRunGeGo_mono {p : Char → Bool} {k : Nat} :
    ∀ (l : List Char) {m n : Nat}, m ≤ n →
      noRunGeGo p k n l = true → noRunGeGo p k m l = true
  | [], _, _, _, _ => rfl
  | c :: r, m, n, hmn, h => by
    by_cases hc : p c = true
    · rw [noRunGeGo_pos hc] at h ⊢
      rcases Bool.and_eq_true_iff.mp h with ⟨h1, h2⟩
      refine Bool.and_eq_true_iff.mpr ⟨?_, noRunGeGo_mono r (by omega) h2⟩
      have := of_decide_eq_true h1
      exact decide_eq_true (by omega)
    · rw [Bool.not_eq_true] at hc
      rw [noRunGeGo_neg hc] at h ⊢
      exact h

theorem noRunGeGo_all {p : Char → Bool} {k : Nat} :
    ∀ (l : List Char) (n : Nat), (∀ a ∈ l, p a = true) → n + l.length < k →
      noRunGeGo p k n l = true
  | [], _, _, _ => rfl
  | c :: r, n, hall, hlen => by
    rw [noRunGeGo_pos (hall c (List.mem_cons_self c r))]
    refine Bool.and_eq_true_iff.mpr ⟨decide_eq_true (by simp at hlen; omega), ?_⟩
    exact noRunGeGo_all r (n + 1) (fun a ha => hall a (List.mem_cons_of_mem c ha))
      (by simp at hlen ⊢; omega)

theorem noRunGeGo_append_run {p : Char → Bool} {k : Nat} {c : Char}
    (hc : p c = false) :
    ∀ (xs : List Char) (n : Nat) (t : List Char), (∀ a ∈ xs, p a = true) →
      n + xs.length < k →
      noRunGeGo p k n (xs ++ c :: t) = noRunGeGo p k 0 t
  | [], n, t, _, _ => by rw [List.nil_append, noRunGeGo_neg hc]
  | x :: xs, n, t, hall, hlen => by
    rw [List.cons_append, noRunGeGo_pos (hall x (List.mem_cons_self x xs))]
    rw [noRunGeGo_append_run hc xs (n + 1) t
      (fun a ha => hall a (List.mem_cons_of_mem x ha)) (by simp at hlen ⊢; omega)]
    have : decide (n + 1 < k) = true := decide_eq_true (by simp at hlen; omega)
    rw [this, Bool.true_and]

theorem noRunGeGo_append_left {p : Char → Bool} {k : Nat} :
    ∀ (a : List Char) (n : Nat) {b : List Char},
      noRunGeGo p k n (a ++ b) = true → noRunGeGo p k n a = true
  | [], _, _, _ => rfl
  | c :: r, n, b, h => by
    by_cases hc : p c = true
    · rw [List.cons_append, noRunGeGo_pos hc] at h
      rcases Bool.and_eq_true_iff.mp h with ⟨h1, h2⟩
      rw [noRunGeGo_pos hc]
      exact Bool.and_eq_true_iff.mpr ⟨h1, noRunGeGo_append_left r (n + 1) h2⟩
    · rw [Bool.not_eq_true] at hc
      rw [List.cons_append, noRunGeGo_neg hc] at h
      rw [noRunGeGo_neg hc]
      exact noRunGeGo_append_left r 0 h

theorem noRunGeGo_append_right {p : Char → Bool} {k : Nat} :
    ∀ (a : List Char) (n : Nat) {b : List Char},
      noRunGeGo p k n (a ++ b) = true → ∃ m, noRunGeGo p k m b = true
  | [], n, _, h => ⟨n, h⟩
  | c :: r, n, b, h => by
    by_cases hc : p c = true
    · rw [List.cons_append, noRunGeGo_pos hc] at h
      exact noRunGeGo_append_right r (n + 1) (Bool.and_eq_true_iff.mp h).2
    · rw [Bool.not_eq_true] at hc
      rw [List.cons_append, noRunGeGo_neg hc] at h
      exact noRunGeGo_append_right r 0 h

theorem noRunGe_of_infix {p : Char → Bool} {k : Nat} {a l : List Char}
    (hinf : a <:+: l) (h : noRunGe p k l = true) : noRunGe p k a = true := by
  rcases hinf with ⟨s, t, rfl⟩
  unfold noRunGe at h ⊢
  rw [List.append_assoc] at h
  rcases noRunGeGo_append_right s 0 h with ⟨m, hm⟩
  have hm0 : noRunGeGo p k 0 (a ++ t) = true := noRunGeGo_mono _ (Nat.zero_le m) hm
  exact noRunGeGo_append_left a 0 hm0

/- If `f` sends every p-run to a p-run of length below `k`, the substitution
output has no run of `k` consecutive p-characters. -/
theorem noRunGe_subRunsGo {p : Char → Bool} {f : List Char → List Char} {k : Nat}
    (hf : ∀ r, (∀ a ∈ r, p a = true) →
      (∀ a ∈ f r, p a = true) ∧ (f r).length < k) :
    ∀ (l acc : List Char), (∀ a ∈ acc, p a = true) →
      noRunGe p k (subRunsGo p f acc l) = true
  | [], acc, hacc => by
    rw [subRunsGo_nil]
    have hrev : ∀ a ∈ acc.reverse, p a = true := by
      intro a ha
      exact hacc a (List.mem_reverse.mp ha)
    rcases hf acc.reverse hrev with ⟨h1, h2⟩
    exact noRunGeGo_all _ 0 h1 (by omega)
  | c :: cs, acc, hacc => by
    by_cases hc : p c = true
    · rw [subRunsGo_pos hc]
      refine noRunGe_subRunsGo hf cs (c :: acc) ?_
      intro a ha
      rcases List.mem_cons.mp ha with h | h
      · subst h; exact hc
      · exact hacc a h
    · rw [Bool.not_eq_true] at hc
      rw [subRunsGo_neg hc]
      have hrev : ∀ a ∈ acc.reverse, p a = true := by
        intro a ha
        exact hacc a (List.mem_reverse.mp ha)
      rcases hf acc.reverse hrev with ⟨h1, h2⟩
      unfold noRunGe
      rw [noRunGeGo_append_run hc _ 0 _ h1 (by omega)]
      exact noRunGe_subRunsGo hf cs [] (by intro a ha; cases ha)

/- If `f` fixes every p-run of length below `k` and the input has no run of
length `k`, the substitution is the identity. -/
theorem subRunsGo_id {p : Char → Bool} {f : List Char → List Char} {k : Nat}
    (hf : ∀ r, (∀ a ∈ r, p a = true) → r.length < k → f r = r) :
    ∀ (l acc : List Char), (∀ a ∈ acc, p a = true) → acc.length < k →
      noRunGeGo p k acc.length l = true →
      subRunsGo p f acc l = acc.reverse ++ l
  | [], acc, hacc, hlen, _ => by
    rw [subRunsGo_nil, hf acc.reverse
      (by intro a ha; exact hacc a (List.mem_reverse.mp ha)) (by simpa using hlen)]
    simp
  | c :: cs, acc, hacc, hlen, hrun => by
    by_cases hc : p c = true
    · rw [noRunGeGo_pos hc] at hrun
      rcases Bool.and_eq_true_iff.mp hrun with ⟨h1, h2⟩
      rw [subRunsGo_pos hc]
      have hacc2 : ∀ a ∈ c :: acc, p a = true := by
        intro a ha
        rcases List.mem_cons.mp ha with h | h
        · subst h; exact hc
        · exact hacc a h
      have := subRunsGo_id hf cs (c :: acc) hacc2 (of_decide_eq_true h1)
        (by simpa using h2)
      rw [this]
      simp
    · rw [Bool.not_eq_true] at hc
      rw [noRunGeGo_neg hc] at hrun
      rw [subRunsGo_neg hc, hf acc.reverse
        (by intro a ha; exact hacc a (List.mem_reverse.mp ha)) (by simpa using hlen)]
      rw [subRunsGo_id hf cs [] (by intro a ha; cases ha)
        (by simp only [List.length_nil]; omega) (by simpa using hrun)]
      simp

/- Characters of the substitution output come from the input or from the
replacement character `d`. -/
theorem mem_subRunsGo {p : Char → Bool} {f : List Char → List Char} {d : Char}
    (hf : ∀ r x, x ∈ f r → x ∈ r ∨ x = d) :
    ∀ (l acc : List Char) {x : Char}, x ∈ subRunsGo p f acc l →
      x ∈ acc ∨ x ∈ l ∨ x = d
  | [], acc, x, hx => by
    rw [subRunsGo_nil] at hx
    rcases hf acc.reverse x hx with h | h
    · exact Or.inl (List.mem_reverse.mp h)
    · exact Or.inr (Or.inr h)
  | c :: cs, acc, x, hx => by
    by_cases hc : p c = true
    · rw [subRunsGo_pos hc] at hx
      rcases mem_subRunsGo hf cs (c :: acc) hx with h | h | h
      · rcases List.mem_cons.mp h with h | h
        · exact Or.inr (Or.inl (by simp [h]))
        · exact Or.inl h
      · exact Or.inr (Or.inl (List.mem_cons_of_mem c h))
      · exact Or.inr (Or.inr h)
    · rw [Bool.not_eq_true] at hc
      rw [subRunsGo_neg hc] at hx
      rcases List.mem_append.mp hx with h | h
      · rcases hf acc.reverse x h with h2 | h2
        · exact Or.inl (List.mem_reverse.mp h2)
        · exact Or.inr (Or.inr h2)
      · rcases List.mem_cons.mp h with h2 | h2
        · exact Or.inr (Or.inl (by simp [h2]))
        · rcases mem_subRunsGo hf cs [] h2 with h3 | h3 | h3
          · cases h3
          · exact Or.inr (Or.inl (List.mem_cons_of_mem c h3))
          · exact Or.inr (Or.inr h3)

theorem dropWhile_idem {p : Char → Bool} :
    ∀ l : List Char, List.dropWhile p (List.dropWhile p l) = List.dropWhile p l
  | [] => rfl
  | c :: t => by
    rw [List.dropWhile_cons]
    by_cases hc : p c = true
    · rw [if_pos hc]
      exact dropWhile_idem t
    · rw [if_neg hc, List.dropWhile_cons, if_neg hc]

theorem dropWhile_head_not {p : Char → Bool} :
    ∀ {l : List Char} {a : Char},
      (List.dropWhile p l).head? = some a → p a = false
  | [], a, h => by simp [List.dropWhile] at h
  | c :: t, a, h => by
    rw [List.dropWhile_cons] at h
    by_cases hc : p c = true
    · rw [if_pos hc] at h
      exact dropWhile_head_not h
    · rw [if_neg hc] at h
      rw [List.head?_cons, Option.some_inj] at h
      subst h
      exact Bool.not_eq_true _ |>.mp hc

theorem dropWhile_eq_self_of_head {p : Char → Bool} {l : List Char}
    (h : ∀ c, l.head? = some c → p c = false) : List.dropWhile p l = l := by
  cases l with
  | nil => rfl
  | cons c t => rw [List.dropWhile_cons, if_neg (by simp [h c rfl])]

theorem pyRstrip_idem (l : List Char) : pyRstrip (pyRstrip l) = pyRstrip l := by
  unfold pyRstrip
  rw [List.reverse_reverse, dropWhile_idem]

theorem mem_pyRstrip {c : Char} {l : List Char} (h : c ∈ pyRstrip l) : c ∈ l := by
  unfold pyRstrip at h
  rw [List.mem_reverse] at h
  exact List.mem_reverse.mp ((List.dropWhile_sublist _).mem h)

theorem pyRstrip_prefix (l : List Char) : pyRstrip l <+: l := by
  unfold pyRstrip
  have h := List.dropWhile_suffix (l := l.reverse) isPySpace
  rw [← List.reverse_prefix] at h
  simpa using h

theorem mem_pyLstrip {c : Char} {l : List Char} (h : c ∈ pyLstrip l) : c ∈ l :=
  (List.dropWhile_sublist _).mem h

theorem filterMap_id_of {f : List Char → Option (List Char)} :
    ∀ {L : List (List Char)}, (∀ a ∈ L, f a = some a) → L.filterMap f = L
  | [], _ => rfl
  | a :: t, h => by
    rw [List.filterMap_cons, h a (List.mem_cons_self a t)]
    rw [filterMap_id_of (fun b hb => h b (List.mem_cons_of_mem a hb))]

/- ---------------------------------------------------------------------
Properties of the three re.sub models.
--------------------------------------------------------------------- -/

theorem noRunGe_subWsRunToSpace (s : List Char) :
    noRunGe isPySpace 2 (subWsRunToSpace s) = true := by
  unfold subWsRunToSpace subRuns
  refine noRunGe_subRunsGo ?_ s [] (by intro a ha; cases ha)
  intro r hr
  by_cases h2 : 2 ≤ r.length
  · rw [if_pos h2]
    refine ⟨?_, by simp⟩
    intro a ha
    rcases List.mem_singleton.mp ha with h
    subst h
    decide
  · rw [if_neg h2]
    exact ⟨hr, by omega⟩

theorem subWsRunToSpace_id {l : List Char} (h : noRunGe isPySpace 2 l = true) :
    subWsRunToSpace l = l := by
  unfold subWsRunToSpace subRuns
  have := subRunsGo_id (k := 2)
    (f := fun r => if 2 ≤ r.length then [' '] else r)
    (by intro r _ hlen; simp only []; rw [if_neg (by omega)])
    l [] (by intro a ha; cases ha) (by simp) (by simpa using h)
  simpa using this

theorem noRunGe_subNl3 (s : List Char) :
    noRunGe (fun c => c == '\n') 3 (subNl3ToNl2 s) = true := by
  unfold subNl3ToNl2 subRuns
  refine noRunGe_subRunsGo ?_ s [] (by intro a ha; cases ha)
  intro r hr
  by_cases h3 : 3 ≤ r.length
  · rw [if_pos h3]
    refine ⟨?_, by simp⟩
    intro a ha
    rcases List.mem_cons.mp ha with h | h
    · subst h; decide
    · rcases List.mem_singleton.mp h with h
      subst h; decide
  · rw [if_neg h3]
    exact ⟨hr, by omega⟩

theorem subNl3_id {l : List Char} (h : noRunGe (fun c => c == '\n') 3 l = true) :
    subNl3ToNl2 l = l := by
  unfold subNl3ToNl2 subRuns
  have := subRunsGo_id (k := 3)
    (f := fun r => if 3 ≤ r.length then ['\n', '\n'] else r)
    (by intro r _ hlen; simp only []; rw [if_neg (by omega)])
    l [] (by intro a ha; cases ha) (by simp) (by simpa using h)
  simpa using this

theorem mem_subNl3 {x : Char} {l : List Char} (h : x ∈ subNl3ToNl2 l) :
    x ∈ l ∨ x = '\n' := by
  unfold subNl3ToNl2 subRuns at h
  have := mem_subRunsGo (d := '\n') ?_ l [] h
  · rcases this with h2 | h2 | h2
    · cases h2
    · exact Or.inl h2
    · exact Or.inr h2
  · intro r x hx
    by_cases h3 : 3 ≤ r.length
    · rw [if_pos h3] at hx
      rcases List.mem_cons.mp hx with h4 | h4
      · exact Or.inr h4
      · exact Or.inr (List.mem_singleton.mp h4)
    · rw [if_neg h3] at hx
      exact Or.inl hx

theorem mem_subWsRunToSpace {x : Char} {l : List Char}
    (h : x ∈ subWsRunToSpace l) : x ∈ l ∨ x = ' ' := by
  unfold subWsRunToSpace subRuns at h
  have := mem_subRunsGo (d := ' ') ?_ l [] h
  · rcases this with h2 | h2 | h2
    · cases h2
    · exact Or.inl h2
    · exact Or.inr h2
  · intro r x hx
    by_cases h2 : 2 ≤ r.length
    · rw [if_pos h2] at hx
      exact Or.inr (List.mem_singleton.mp hx)
    · rw [if_neg h2] at hx
      exact Or.inl hx

/- The first collapse substitution removes every newline. -/
theorem nl_not_mem_subNlRunGo :
    ∀ (l acc : List Char),
      '\n' ∉ subRunsGo isPySpace
        (fun r => if r.contains '\n' then [' '] else r) acc l
  | [], acc => by
    rw [subRunsGo_nil]
    by_cases hc : acc.reverse.contains '\n' = true
    · rw [if_pos hc]
      intro h
      rcases List.mem_singleton.mp h with h2
      cases h2
    · rw [if_neg hc]
      intro h
      exact hc (List.elem_iff.mpr h)
  | c :: cs, acc => by
    by_cases hc : isPySpace c = true
    · rw [subRunsGo_pos hc]
      exact nl_not_mem_subNlRunGo cs (c :: acc)
    · rw [Bool.not_eq_true] at hc
      rw [subRunsGo_neg hc]
      intro h
      rcases List.mem_append.mp h with h2 | h2
      · by_cases hcon : acc.reverse.contains '\n' = true
        · rw [if_pos hcon] at h2
          rcases List.mem_singleton.mp h2 with h3
          cases h3
        · rw [if_neg hcon] at h2
          exact hcon (List.elem_iff.mpr h2)
      · rcases List.mem_cons.mp h2 with h3 | h3
        · rw [← h3] at hc
          simp [isPySpace] at hc
        · exact nl_not_mem_subNlRunGo cs [] h3

theorem nl_not_mem_subNlRunToSpace (s : List Char) :
    '\n' ∉ subNlRunToSpace s :=
  nl_not_mem_subNlRunGo s []

/- When the input has no newline, the first collapse substitution is the
identity. -/
theorem subNlRunGo_id :
    ∀ (l acc : List Char), '\n' ∉ l → '\n' ∉ acc →
      subRunsGo isPySpace (fun r => if r.contains '\n' then [' '] else r) acc l =
        acc.reverse ++ l
  | [], acc, _, hacc => by
    rw [subRunsGo_nil, if_neg ?_]
    · simp
    · intro hcon
      exact hacc (by simpa using List.elem_iff.mp hcon)
  | c :: cs, acc, hl, hacc => by
    have hcnl : c ≠ '\n' := by
      intro h
      exact hl (by simp [h])
    have htail : '\n' ∉ cs := fun h => hl (List.mem_cons_of_mem c h)
    by_cases hc : isPySpace c = true
    · rw [subRunsGo_pos hc, subNlRunGo_id cs (c :: acc) htail ?_]
      · simp
      · intro h
        rcases List.mem_cons.mp h with h2 | h2
        · exact hcnl h2.symm
        · exact hacc h2
    · rw [Bool.not_eq_true] at hc
      rw [subRunsGo_neg hc, if_neg ?_, subNlRunGo_id cs [] htail (by intro h; cases h)]
      · simp
      · intro hcon
        exact hacc (by simpa using List.elem_iff.mp hcon)

theorem subNlRunToSpace_id {l : List Char} (h : '\n' ∉ l) :
    subNlRunToSpace l = l := by
  unfold subNlRunToSpace subRuns
  rw [subNlRunGo_id l [] h (by intro h2; cases h2)]
  simp

/- ---------------------------------------------------------------------
Lemmas about pyStrip.
--------------------------------------------------------------------- -/

theorem pyLstrip_eq_self_of_head {l : List Char}
    (h : ∀ c, l.head? = some c → isPySpace c = false) : pyLstrip l = l :=
  dropWhile_eq_self_of_head h

theorem pyRstrip_eq_self_of_getLast {l : List Char}
    (h : ∀ c, l.getLast? = some c → isPySpace c = false) : pyRstrip l = l := by
  unfold pyRstrip
  rw [dropWhile_eq_self_of_head (by intro c hc; exact h c (by rwa [List.head?_reverse] at hc))]
  exact List.reverse_reverse l

theorem pyRstrip_getLast_not {l : List Char} {c : Char}
    (h : (pyRstrip l).getLast? = some c) : isPySpace c = false := by
  unfold pyRstrip at h
  rw [List.getLast?_reverse] at h
  exact dropWhile_head_not h

theorem pyStrip_infix (l : List Char) : pyStrip l <:+: l := by
  have h1 : pyStrip l <:+ pyRstrip l := List.dropWhile_suffix isPySpace
  exact h1.isInfix.trans ( pyRstrip_prefix l).isInfix

theorem mem_pyStrip {c : Char} {l : List Char} (h : c ∈ pyStrip l) : c ∈ l :=
  (( pyStrip_infix l).sublist).mem h

theorem pyStrip_idem (l : List Char) : pyStrip (pyStrip l) = pyStrip l := by
  by_cases hz : pyStrip l = []
  · rw [hz]; rfl
  · have hlast : ∀ c, (pyStrip l).getLast? = some c → isPySpace c = false := by
      intro c hc
      unfold pyStrip pyLstrip at hc
      rcases List.dropWhile_suffix (l := pyRstrip l) isPySpace with ⟨t, ht⟩
      have hne : List.dropWhile isPySpace (pyRstrip l) ≠ [] := by
        intro h0
        exact hz (by unfold pyStrip pyLstrip; rw [h0])
      have := List.getLast?_append_of_ne_nil t hne
      rw [ht] at this
      exact pyRstrip_getLast_not (by rw [this]; exact hc)
    show pyLstrip (pyRstrip (pyStrip l)) = pyStrip l
    rw [pyRstrip_eq_self_of_getLast hlast]
    unfold pyStrip
    unfold pyLstrip
    exact dropWhile_idem _

/- Dropping one trailing character preserves run-freedom (it is a prefix). -/
theorem noRunGe_dropLast {p : Char → Bool} {k : Nat} {l : List Char}
    (h : noRunGe p k l = true) : noRunGe p k l.dropLast = true := by
  by_cases hl : l = []
  · subst hl; exact h
  · have : l = l.dropLast ++ [l.getLast hl] := (List.dropLast_append_getLast hl).symm
    unfold noRunGe at h ⊢
    rw [this] at h
    exact noRunGeGo_append_left _ 0 h

/- Run-freedom for a smaller predicate. -/
theorem noRunGe_imp {p q : Char → Bool} {k : Nat}
    (hpq : ∀ c, p c = true → q c = true) :
    ∀ (l : List Char) {m n : Nat}, m ≤ n →
      noRunGeGo q k n l = true → noRunGeGo p k m l = true
  | [], _, _, _, _ => rfl
  | c :: r, m, n, hmn, h => by
    by_cases hp : p c = true
    · have hq := hpq c hp
      rw [noRunGeGo_pos hq] at h
      rcases Bool.and_eq_true_iff.mp h with ⟨h1, h2⟩
      rw [noRunGeGo_pos hp]
      refine Bool.and_eq_true_iff.mpr
        ⟨decide_eq_true (by have := of_decide_eq_true h1; omega), ?_⟩
      exact noRunGe_imp hpq r (by omega) h2
    · rw [Bool.not_eq_true] at hp
      rw [noRunGeGo_neg hp]
      by_cases hq : q c = true
      · rw [noRunGeGo_pos hq] at h
        rcases Bool.and_eq_true_iff.mp h with ⟨_, h2⟩
        exact noRunGe_imp hpq r (Nat.zero_le _) h2
      · rw [Bool.not_eq_true] at hq
        rw [noRunGeGo_neg hq] at h
        exact noRunGe_imp hpq r (Nat.zero_le _) h

/- ---------------------------------------------------------------------
The Whitespace Collapser: helper facts.
--------------------------------------------------------------------- -/

theorem collapse_no_nl (s : List Char) :
    '\n' ∉ collapse_newlines_to_spaces s := by
  intro h
  unfold collapse_newlines_to_spaces at h
  have h1 := mem_pyStrip h
  rcases mem_subWsRunToSpace h1 with h2 | h2
  · exact nl_not_mem_subNlRunToSpace s h2
  · cases h2

theorem collapse_noDoubleWs (s : List Char) :
    noRunGe isPySpace 2 (collapse_newlines_to_spaces s) = true := by
  unfold collapse_newlines_to_spaces
  exact noRunGe_of_infix ( pyStrip_infix _) (noRunGe_subWsRunToSpace _)

theorem collapse_idem (s : List Char) :
    collapse_newlines_to_spaces (collapse_newlines_to_spaces s) =
      collapse_newlines_to_spaces s := by
  have h1 : subNlRunToSpace (collapse_newlines_to_spaces s) =
      collapse_newlines_to_spaces s := subNlRunToSpace_id (collapse_no_nl s)
  have h2 : subWsRunToSpace (collapse_newlines_to_spaces s) =
      collapse_newlines_to_spaces s := subWsRunToSpace_id (collapse_noDoubleWs s)
  show pyStrip (subWsRunToSpace (subNlRunToSpace (collapse_newlines_to_spaces s))) =
    collapse_newlines_to_spaces s
  rw [h1, h2]
  exact pyStrip_idem _

/- ---------------------------------------------------------------------
Lemmas about normalize_newlines.
--------------------------------------------------------------------- -/

theorem map_id_of {f : Char → Char} :
    ∀ {l : List Char}, (∀ c ∈ l, f c = c) → l.map f = l
  | [], _ => rfl
  | c :: t, h => by
    rw [List.map_cons, h c (List.mem_cons_self c t),
      map_id_of (fun b hb => h b (List.mem_cons_of_mem c hb))]

theorem replCRLFGo_id :
    ∀ {l : List Char}, '\r' ∉ l → replCRLFGo false l = l
  | [], _ => rfl
  | c :: t, h => by
    have hc : c ≠ '\r' := by
      intro h2
      exact h (by simp [h2])
    show (if c = '\r' then replCRLFGo true t else c :: replCRLFGo false t) = c :: t
    rw [if_neg hc, replCRLFGo_id (fun h2 => h (List.mem_cons_of_mem c h2))]

theorem normalize_newlines_id {l : List Char} (hr : '\r' ∉ l) (ht : '\t' ∉ l) :
    normalize_newlines l = l := by
  unfold normalize_newlines replCRLF
  rw [replCRLFGo_id hr]
  have h1 : l.map (fun c => if c == '\r' then '\n' else c) = l := by
    refine map_id_of ?_
    intro c hc
    rw [if_neg (by simp; intro h; subst h; exact hr hc)]
  rw [h1]
  refine map_id_of ?_
  intro c hc
  rw [if_neg (by simp; intro h; subst h; exact ht hc)]

theorem no_cr_normalize (l : List Char) : '\r' ∉ normalize_newlines l := by
  intro h
  unfold normalize_newlines at h
  rcases List.mem_map.mp h with ⟨b, hb, hfb⟩
  rcases List.mem_map.mp hb with ⟨a, _, hfa⟩
  by_cases hbt : b = '\t'
  · rw [hbt] at hfb
    simp at hfb
  · rw [if_neg (by simpa using hbt)] at hfb
    subst hfb
    by_cases hat : a = '\r'
    · rw [if_pos (by simpa using hat)] at hfa
      cases hfa
    · rw [if_neg (by simpa using hat)] at hfa
      exact hat hfa

theorem no_tab_normalize (l : List Char) : '\t' ∉ normalize_newlines l := by
  intro h
  unfold normalize_newlines at h
  rcases List.mem_map.mp h with ⟨b, _, hfb⟩
  by_cases hbt : b = '\t'
  · rw [if_pos (by simpa using hbt)] at hfb
    cases hfb
  · rw [if_neg (by simpa using hbt)] at hfb
    exact hbt hfb

/- ---------------------------------------------------------------------
Lemmas about pySplitlines (on carriage-return-free input).
--------------------------------------------------------------------- -/

theorem splitGo_bound {c : Char} (hb : isLineBoundary c = true) (hcr : c ≠ '\r')
    (cur r : List Char) :
    pySplitlinesGo false cur (c :: r) =
      cur.reverse :: pySplitlinesGo false [] r := by
  simp [pySplitlinesGo, hb, hcr]

/- Characters of the produced lines come from `cur` or the input, and are
never line boundaries. -/
theorem splitGo_line_chars :
    ∀ (l cur : List Char), '\r' ∉ l →
      (∀ a ∈ cur, isLineBoundary a = false) →
      ∀ L ∈ pySplitlinesGo false cur l, ∀ c ∈ L,
        (c ∈ cur ∨ c ∈ l) ∧ isLineBoundary c = false
  | [], cur, _, hcur, L, hL, c, hc => by
    rw [splitGo_nil] at hL
    by_cases he : cur.isEmpty
    · rw [if_pos he] at hL
      cases hL
    · rw [if_neg he] at hL
      rcases List.mem_singleton.mp hL with h
      subst h
      have := List.mem_reverse.mp hc
      exact ⟨Or.inl this, hcur c this⟩
  | b :: t, cur, hr, hcur, L, hL, c, hc => by
    have hrt : '\r' ∉ t := fun h => hr (List.mem_cons_of_mem b h)
    have hbr : b ≠ '\r' := by
      intro h
      exact hr (by simp [h])
    by_cases hb : isLineBoundary b = true
    · rw [splitGo_bound hb hbr] at hL
      rcases List.mem_cons.mp hL with h | h
      · subst h
        have := List.mem_reverse.mp hc
        exact ⟨Or.inl this, hcur c this⟩
      · have := splitGo_line_chars t [] hrt (by intro a ha; cases ha) L h c hc
        rcases this.1 with h2 | h2
        · cases h2
        · exact ⟨Or.inr (List.mem_cons_of_mem b h2), this.2⟩
    · rw [Bool.not_eq_true] at hb
      rw [splitGo_nonb hb] at hL
      have hcur2 : ∀ a ∈ b :: cur, isLineBoundary a = false := by
        intro a ha
        rcases List.mem_cons.mp ha with h | h
        · subst h; exact hb
        · exact hcur a h
      have := splitGo_line_chars t (b :: cur) hrt hcur2 L hL c hc
      rcases this.1 with h2 | h2
      · rcases List.mem_cons.mp h2 with h3 | h3
        · exact ⟨Or.inr (by simp [h3]), this.2⟩
        · exact ⟨Or.inl h3, this.2⟩
      · exact ⟨Or.inr (List.mem_cons_of_mem b h2), this.2⟩

theorem splitGo_eq_nil :
    ∀ {l cur : List Char}, '\r' ∉ l → pySplitlinesGo false cur l = [] →
      cur = [] ∧ l = []
  | [], cur, _, h => by
    rw [splitGo_nil] at h
    by_cases he : cur.isEmpty
    · exact ⟨List.isEmpty_iff.mp he, rfl⟩
    · rw [if_neg he] at h
      cases h
  | b :: t, cur, hr, h => by
    have hbr : b ≠ '\r' := by
      intro h2
      exact hr (by simp [h2])
    by_cases hb : isLineBoundary b = true
    · rw [splitGo_bound hb hbr] at h
      cases h
    · rw [Bool.not_eq_true] at hb
      rw [splitGo_nonb hb] at h
      have := splitGo_eq_nil (fun h2 => hr (List.mem_cons_of_mem b h2)) h
      cases this.1

theorem nlBound_mem {l : List Char} {c : Char} (h : nlBound l = true)
    (hc : c ∈ l) : c = '\n' ∨ isLineBoundary c = false := by
  have := List.all_eq_true.mp h c hc
  rcases Bool.or_eq_true_iff.mp this with h2 | h2
  · exact Or.inl (by simpa using h2)
  · exact Or.inr (by simpa using h2)

theorem nlBound_no_cr {l : List Char} (h : nlBound l = true) : '\r' ∉ l := by
  intro hc
  rcases nlBound_mem h hc with h2 | h2
  · cases h2
  · simp [isLineBoundary] at h2

theorem nlBound_tail {c : Char} {l : List Char} (h : nlBound (c :: l) = true) :
    nlBound l = true := by
  unfold nlBound at h ⊢
  rw [List.all_cons] at h
  exact (Bool.and_eq_true_iff.mp h).2

theorem dropFinalNl_nil : dropFinalNl [] = [] := rfl

theorem dropFinalNl_cons_ne_nil {c : Char} {rest : List Char} (h : rest ≠ []) :
    dropFinalNl (c :: rest) = c :: dropFinalNl rest := by
  unfold dropFinalNl
  rcases List.exists_cons_of_ne_nil h with ⟨b, t, rfl⟩
  rw [List.getLast?_cons_cons, List.dropLast_cons₂]
  by_cases hl : (b :: t).getLast? = some '\n'
  · rw [if_pos hl, if_pos hl]
  · rw [if_neg hl, if_neg hl]

theorem dropFinalNl_single (c : Char) :
    dropFinalNl [c] = if c = '\n' then [] else [c] := by
  unfold dropFinalNl
  by_cases hc : c = '\n'
  · subst hc; rfl
  · rw [if_neg (by simpa using hc), if_neg hc]

/- "\n".join ∘ splitlines removes exactly one final newline (when every
boundary character is a plain newline). -/
theorem joinNl_splitGo :
    ∀ (y cur : List Char), nlBound y = true →
      joinNl (pySplitlinesGo false cur y) = cur.reverse ++ dropFinalNl y
  | [], cur, _ => by
    rw [splitGo_nil, dropFinalNl_nil]
    by_cases he : cur.isEmpty
    · rw [if_pos he, List.isEmpty_iff.mp he]
      rfl
    · rw [if_neg he]
      show cur.reverse = cur.reverse ++ []
      rw [List.append_nil]
  | b :: t, cur, hnl => by
    have ht : nlBound t = true := nlBound_tail hnl
    rcases nlBound_mem hnl (List.mem_cons_self b t) with hb | hb
    · subst hb
      rw [splitGo_nl]
      by_cases htn : t = []
      · subst htn
        show joinNl [cur.reverse] = cur.reverse ++ dropFinalNl ['\n']
        rw [dropFinalNl_single]
        simp [joinNl]
      · have hne : pySplitlinesGo false [] t ≠ [] := by
          intro h0
          exact htn (splitGo_eq_nil (nlBound_no_cr ht) h0).2
        rcases List.exists_cons_of_ne_nil hne with ⟨L2, Ls, hgo⟩
        rw [hgo]
        show cur.reverse ++ '\n' :: joinNl (L2 :: Ls) =
          cur.reverse ++ dropFinalNl ('\n' :: t)
        rw [dropFinalNl_cons_ne_nil htn, ← hgo]
        have := joinNl_splitGo t [] ht
        rw [List.reverse_nil, List.nil_append] at this
        rw [this]
    · rw [splitGo_nonb hb]
      have := joinNl_splitGo t (b :: cur) ht
      rw [this, List.reverse_cons, List.append_assoc]
      by_cases htn : t = []
      · subst htn
        rw [dropFinalNl_nil, dropFinalNl_single, if_neg ?_]
        · rfl
        · intro h
          subst h
          simp [isLineBoundary] at hb
      · rw [dropFinalNl_cons_ne_nil htn]
        rfl

/- A boundary-free segment is absorbed into the current line. -/
theorem splitGo_absorb :
    ∀ (seg cur t : List Char), (∀ a ∈ seg, isLineBoundary a = false) →
      pySplitlinesGo false cur (seg ++ t) =
        pySplitlinesGo false (seg.reverse ++ cur) t
  | [], cur, t, _ => rfl
  | b :: seg, cur, t, h => by
    rw [List.cons_append, splitGo_nonb (h b (List.mem_cons_self b seg))]
    rw [splitGo_absorb seg (b :: cur) t
      (fun a ha => h a (List.mem_cons_of_mem b ha))]
    rw [List.reverse_cons, List.append_assoc]
    rfl

/- Splitting a run of k newlines: one line break per newline. -/
theorem splitGo_nlrun :
    ∀ (k : Nat) (cur t : List Char), 1 ≤ k →
      pySplitlinesGo false cur (List.replicate k '\n' ++ t) =
        cur.reverse :: (List.replicate (k - 1) ([] : List Char) ++
          pySplitlinesGo false [] t)
  | 0, _, _, h => by omega
  | 1, cur, t, _ => by
    rw [show List.replicate 1 '\n' = ['\n'] from rfl]
    rw [List.cons_append, List.nil_append, splitGo_nl]
    rfl
  | k + 2, cur, t, _ => by
    rw [List.replicate_succ, List.cons_append, splitGo_nl]
    rw [splitGo_nlrun (k + 1) [] t (by omega)]
    rw [show k + 2 - 1 = (k + 1 - 1) + 1 from by omega, List.replicate_succ]
    rfl

/- splitlines of "\n".join(lines): the lines themselves, except that a last
empty line is not recovered. -/
theorem splitlines_joinNl :
    ∀ (lines : List (List Char)),
      (∀ L ∈ lines, ∀ a ∈ L, isLineBoundary a = false) →
      pySplitlines (joinNl lines) = trimLastEmpty lines
  | [], _ => rfl
  | [l], h => by
    have habs := splitGo_absorb l [] [] (h l (List.mem_cons_self l []))
    rw [List.append_nil] at habs
    show pySplitlinesGo false [] l = trimLastEmpty [l]
    rw [habs, splitGo_nil]
    by_cases hl : l = []
    · subst hl
      rfl
    · rw [if_neg (by simpa using (by simpa using hl : l.reverse ≠ []))]
      unfold trimLastEmpty
      rw [List.append_nil, List.reverse_reverse]
      have : ([l].getLast? = some l) := rfl
      rw [this]
      cases l with
      | nil => exact absurd rfl hl
      | cons a t => rfl
  | l :: l2 :: ls, h => by
    show pySplitlinesGo false [] (l ++ '\n' :: joinNl (l2 :: ls)) =
      trimLastEmpty (l :: l2 :: ls)
    rw [splitGo_absorb l [] _ (h l (List.mem_cons_self l _)), splitGo_nl]
    rw [List.append_nil, List.reverse_reverse]
    have ih := splitlines_joinNl (l2 :: ls)
      (fun L hL => h L (List.mem_cons_of_mem l hL))
    unfold pySplitlines at ih
    rw [ih]
    unfold trimLastEmpty
    rw [List.getLast?_cons_cons]
    by_cases he : (l2 :: ls).getLast? = some ([] : List Char)
    · rw [he, List.dropLast_cons₂]
    · have : ∀ o : Option (List Char), o = (l2 :: ls).getLast? →
          (match o with
            | some ([] : List Char) => (l2 :: ls).dropLast
            | _ => l2 :: ls) = l2 :: ls := by
        intro o ho
        match o with
        | some [] => exact absurd ho.symm he
        | some (a :: t) => rfl
        | none => rfl
      rw [this _ rfl]
      have h2 : ∀ o : Option (List Char), o = (l2 :: ls).getLast? →
          (match o with
            | some ([] : List Char) => (l :: l2 :: ls).dropLast
            | _ => l :: l2 :: ls) = l :: l2 :: ls := by
        intro o ho
        match o with
        | some [] => exact absurd ho.symm he
        | some (a :: t) => rfl
        | none => rfl
      rw [h2 _ rfl]

/- Every line of the \n{3,}-collapsed text is either empty or already a line
of the original text (the substitution only shortens newline runs). -/
theorem phi_subNl3_lines :
    ∀ (z acc cur : List Char),
      (∀ a ∈ z, a = '\n' ∨ isLineBoundary a = false) →
      (∀ a ∈ acc, a = '\n') →
      ∀ l ∈ pySplitlinesGo false cur
        (subRunsGo (fun c => c == '\n')
          (fun r => if 3 ≤ r.length then ['\n', '\n'] else r) acc z),
      l = [] ∨ l ∈ pySplitlinesGo false cur (acc.reverse ++ z)
  | [], acc, cur, _, hacc, l, hl => by
    rw [subRunsGo_nil] at hl
    have hrev : acc.reverse = List.replicate acc.length '\n' := by
      have := List.eq_replicate_of_mem
        (l := acc.reverse) (a := '\n')
        (fun b hb => hacc b (List.mem_reverse.mp hb))
      rwa [List.length_reverse] at this
    by_cases hm : acc.length = 0
    · rw [List.eq_nil_of_length_eq_zero hm] at hl ⊢
      rw [show (if 3 ≤ ([] : List Char).reverse.length then ['\n', '\n']
          else ([] : List Char).reverse) = ([] : List Char) from rfl] at hl
      exact Or.inr hl
    · rw [hrev] at hl ⊢
      set m' : Nat := if 3 ≤ acc.length then 2 else acc.length with hm'
      have hfr : (if 3 ≤ (List.replicate acc.length '\n').length
          then ['\n', '\n'] else List.replicate acc.length '\n') =
          List.replicate m' '\n' := by
        simp only [List.length_replicate]
        by_cases h3 : 3 ≤ acc.length
        · rw [if_pos h3, hm', if_pos h3]
          rfl
        · rw [if_neg h3, hm', if_neg h3]
      rw [hfr] at hl
      have h1 : 1 ≤ m' := by
        rw [hm']
        by_cases h3 : 3 ≤ acc.length
        · rw [if_pos h3]; omega
        · rw [if_neg h3]; omega
      have hlrun := splitGo_nlrun m' cur [] h1
      rw [List.append_nil] at hlrun
      rw [hlrun] at hl
      have hrrun := splitGo_nlrun acc.length cur [] (by omega)
      rw [List.append_nil] at hrrun
      rw [List.append_nil, hrrun]
      rcases List.mem_cons.mp hl with h | h
      · exact Or.inr (by rw [h]; exact List.mem_cons_self _ _)
      · rcases List.mem_append.mp h with h2 | h2
        · exact Or.inl (List.eq_of_mem_replicate h2)
        · rw [splitGo_nil] at h2
          simp at h2
  | c :: cs, acc, cur, hz, hacc, l, hl => by
    have hzt : ∀ a ∈ cs, a = '\n' ∨ isLineBoundary a = false :=
      fun a ha => hz a (List.mem_cons_of_mem c ha)
    by_cases hc : c = '\n'
    · subst hc
      rw [subRunsGo_pos (by simp)] at hl
      have := phi_subNl3_lines cs ('\n' :: acc) cur hzt ?_ l hl
      · rcases this with h | h
        · exact Or.inl h
        · refine Or.inr ?_
          rw [List.reverse_cons, List.append_assoc] at h
          exact h
      · intro a ha
        rcases List.mem_cons.mp ha with h | h
        · exact h
        · exact hacc a h
    · have hb : isLineBoundary c = false := by
        rcases hz c (List.mem_cons_self c cs) with h | h
        · exact absurd h hc
        · exact h
      rw [subRunsGo_neg (by simpa using hc)] at hl
      by_cases hae : acc = []
      · subst hae
        rw [show (if 3 ≤ ([] : List Char).reverse.length then ['\n', '\n']
            else ([] : List Char).reverse) = ([] : List Char) from rfl,
          List.nil_append] at hl
        rw [splitGo_nonb hb] at hl
        have := phi_subNl3_lines cs [] (c :: cur) hzt
          (by intro a ha; cases ha) l hl
        rcases this with h | h
        · exact Or.inl h
        · refine Or.inr ?_
          rw [List.reverse_nil, List.nil_append, splitGo_nonb hb]
          simpa using h
      · have hrev : acc.reverse = List.replicate acc.length '\n' := by
          have := List.eq_replicate_of_mem
            (l := acc.reverse) (a := '\n')
            (fun b hb => hacc b (List.mem_reverse.mp hb))
          rwa [List.length_reverse] at this
        have hm1 : 1 ≤ acc.length := by
          rcases List.exists_cons_of_ne_nil hae with ⟨x, xs, rfl⟩
          simp
        rw [hrev] at hl ⊢
        set m' : Nat := if 3 ≤ acc.length then 2 else acc.length with hm'
        have hfr : (if 3 ≤ (List.replicate acc.length '\n').length
            then ['\n', '\n'] else List.replicate acc.length '\n') =
            List.replicate m' '\n' := by
          simp only [List.length_replicate]
          by_cases h3 : 3 ≤ acc.length
          · rw [if_pos h3, hm', if_pos h3]
            rfl
          · rw [if_neg h3, hm', if_neg h3]
        rw [hfr] at hl
        have h1 : 1 ≤ m' := by
          rw [hm']
          by_cases h3 : 3 ≤ acc.length
          · rw [if_pos h3]; omega
          · rw [if_neg h3]; omega
        rw [splitGo_nlrun m' cur _ h1] at hl
        rw [splitGo_nlrun acc.length cur _ hm1]
        rcases List.mem_cons.mp hl with h | h
        · exact Or.inr (by rw [h]; exact List.mem_cons_self _ _)
        · rcases List.mem_append.mp h with h2 | h2
          · exact Or.inl (List.eq_of_mem_replicate h2)
          · rw [show (c :: subRunsGo (fun c => c == '\n')
                (fun r => if 3 ≤ r.length then ['\n', '\n'] else r) [] cs) =
                [c] ++ subRunsGo (fun c => c == '\n')
                (fun r => if 3 ≤ r.length then ['\n', '\n'] else r) [] cs
                from rfl] at h2
            rw [splitGo_absorb [c] [] _ (by
              intro a ha
              rcases List.mem_singleton.mp ha with rfl
              exact hb)] at h2
            have := phi_subNl3_lines cs [] [c]
              hzt (by intro a ha; cases ha) l ?_
            · rcases this with h3 | h3
              · exact Or.inl h3
              · refine Or.inr ?_
                refine List.mem_cons_of_mem _ (List.mem_append.mpr (Or.inr ?_))
                rw [show (c :: cs) = [c] ++ cs from rfl,
                  splitGo_absorb [c] [] cs (by
                    intro a ha
                    rcases List.mem_singleton.mp ha with rfl
                    exact hb)]
                simpa using h3
            · simpa using h2

/- ---------------------------------------------------------------------
The Noise-Line Filter: structure of its output.
--------------------------------------------------------------------- -/

theorem cleanLine_eq_some {raw u : List Char} (h : cleanLine raw = some u) :
    u = pyRstrip raw := by
  unfold cleanLine at h
  by_cases h1 : 5000 < (pyRstrip raw).length
  · rw [if_pos h1] at h
    exact (Option.some_inj.mp h).symm
  · rw [if_neg h1] at h
    by_cases h2 : matchesNoise (pyRstrip raw) = true
    · rw [if_pos h2] at h
      cases h
    · rw [Bool.not_eq_true] at h2
      rw [if_neg (by simp [h2])] at h
      exact (Option.some_inj.mp h).symm

theorem cleanLine_again {raw u : List Char} (h : cleanLine raw = some u) :
    cleanLine u = some u := by
  have hu := cleanLine_eq_some h
  subst hu
  by_cases h1 : 5000 < (pyRstrip raw).length
  · simp [cleanLine, pyRstrip_idem, h1]
  · by_cases h2 : matchesNoise (pyRstrip raw) = true
    · exfalso
      simp [cleanLine, h1, h2] at h
    · simp [cleanLine, pyRstrip_idem, h1, h2]

theorem cleanLine_nil : cleanLine [] = some [] := by decide

theorem mem_joinNl {c : Char} :
    ∀ {L : List (List Char)}, c ∈ joinNl L →
      c = '\n' ∨ ∃ l ∈ L, c ∈ l
  | [], h => by cases h
  | [l], h => Or.inr ⟨l, List.mem_cons_self l [], h⟩
  | l :: l2 :: t, h => by
    rcases List.mem_append.mp h with h2 | h2
    · exact Or.inr ⟨l, List.mem_cons_self l _, h2⟩
    · rcases List.mem_cons.mp h2 with h3 | h3
      · exact Or.inl h3
      · rcases mem_joinNl h3 with h4 | h4
        · exact Or.inl h4
        · rcases h4 with ⟨u, hu, hc⟩
          exact Or.inr ⟨u, List.mem_cons_of_mem l hu, hc⟩

theorem mem_trimLastEmpty {L : List (List Char)} {l : List Char}
    (h : l ∈ trimLastEmpty L) : l ∈ L := by
  unfold trimLastEmpty at h
  rcases hg : L.getLast? with _ | u
  · rw [hg] at h
    exact h
  · rw [hg] at h
    cases u with
    | nil => exact (List.dropLast_sublist L).mem h
    | cons a t => exact h

theorem cleanedOf_kept {x : List Char} {u : List Char} (h : u ∈ cleanedOf x) :
    cleanLine u = some u := by
  rcases List.mem_filterMap.mp h with ⟨raw, _, hraw⟩
  exact cleanLine_again hraw

theorem cleanedOf_chars {x : List Char} {u : List Char} (h : u ∈ cleanedOf x)
    {c : Char} (hc : c ∈ u) : isLineBoundary c = false ∧ c ≠ '\t' := by
  rcases List.mem_filterMap.mp h with ⟨raw, hrawmem, hraw⟩
  have hu := cleanLine_eq_some hraw
  rw [hu] at hc
  have hcraw : c ∈ raw := mem_pyRstrip hc
  have := splitGo_line_chars (normalize_newlines x) []
    (no_cr_normalize x) (by intro a ha; cases ha) raw hrawmem c hcraw
  rcases this.1 with h2 | h2
  · cases h2
  · exact ⟨this.2, by
      intro h3
      subst h3
      exact no_tab_normalize x h2⟩

theorem remove_noise_eq (x : List Char) :
    remove_noise_lines_safe_only x = subNl3ToNl2 (joinNl (cleanedOf x)) := rfl

theorem nlBound_remove_noise (x : List Char) :
    nlBound (remove_noise_lines_safe_only x) = true := by
  rw [remove_noise_eq]
  refine List.all_eq_true.mpr ?_
  intro c hc
  refine Bool.or_eq_true_iff.mpr ?_
  rcases mem_subNl3 hc with h | h
  · rcases mem_joinNl h with h2 | h2
    · exact Or.inl (by simp [h2])
    · rcases h2 with ⟨u, hu, hcu⟩
      exact Or.inr (by simp [(cleanedOf_chars hu hcu).1])
  · exact Or.inl (by simp [h])

theorem no_tab_remove_noise (x : List Char) :
    '\t' ∉ remove_noise_lines_safe_only x := by
  rw [remove_noise_eq]
  intro hc
  rcases mem_subNl3 hc with h | h
  · rcases mem_joinNl h with h2 | h2
    · cases h2
    · rcases h2 with ⟨u, hu, hcu⟩
      exact (cleanedOf_chars hu hcu).2 rfl
  · cases h

theorem no_cr_remove_noise (x : List Char) :
    '\r' ∉ remove_noise_lines_safe_only x :=
  nlBound_no_cr (nlBound_remove_noise x)

/- Every line of the filter output is kept verbatim by a second pass. -/
theorem remove_noise_lines_kept {x l : List Char}
    (h : l ∈ pySplitlines (remove_noise_lines_safe_only x)) :
    cleanLine l = some l := by
  rw [remove_noise_eq] at h
  unfold pySplitlines at h
  unfold subNl3ToNl2 subRuns at h
  have hphi := phi_subNl3_lines (joinNl (cleanedOf x)) [] [] ?_ ?_ l h
  · rcases hphi with h2 | h2
    · rw [h2]
      exact cleanLine_nil
    · rw [List.reverse_nil, List.nil_append] at h2
      have hT2 := splitlines_joinNl (cleanedOf x)
        (fun L hL a ha => (cleanedOf_chars hL ha).1)
      unfold pySplitlines at hT2
      rw [hT2] at h2
      exact cleanedOf_kept (mem_trimLastEmpty h2)
  · intro a ha
    rcases mem_joinNl ha with h2 | h2
    · exact Or.inl h2
    · rcases h2 with ⟨u, hu, hau⟩
      exact Or.inr (cleanedOf_chars hu hau).1
  · intro a ha
    cases ha

/- A second pass of the Noise-Line Filter only removes one final newline. -/
theorem remove_noise_pass2 (x : List Char) :
    remove_noise_lines_safe_only (remove_noise_lines_safe_only x) =
      dropFinalNl (remove_noise_lines_safe_only x) := by
  have hnorm : normalize_newlines (remove_noise_lines_safe_only x) =
      remove_noise_lines_safe_only x :=
    normalize_newlines_id (no_cr_remove_noise x) (no_tab_remove_noise x)
  have hclean : cleanedOf (remove_noise_lines_safe_only x) =
      pySplitlines (remove_noise_lines_safe_only x) := by
    unfold cleanedOf
    rw [hnorm]
    exact filterMap_id_of (fun a ha => remove_noise_lines_kept ha)
  have hjoin : joinNl (pySplitlines (remove_noise_lines_safe_only x)) =
      dropFinalNl (remove_noise_lines_safe_only x) := by
    have := joinNl_splitGo (remove_noise_lines_safe_only x) []
      (nlBound_remove_noise x)
    rwa [List.reverse_nil, List.nil_append] at this
  have hno : noRunGe (fun c => c == '\n') 3
      (remove_noise_lines_safe_only x) = true := by
    rw [remove_noise_eq]
    exact noRunGe_subNl3 _
  have hnodrop : noRunGe (fun c => c == '\n') 3
      (dropFinalNl (remove_noise_lines_safe_only x)) = true := by
    unfold dropFinalNl
    by_cases hg : (remove_noise_lines_safe_only x).getLast? = some '\n'
    · rw [if_pos hg]
      exact noRunGe_dropLast hno
    · rw [if_neg hg]
      exact hno
  rw [remove_noise_eq (remove_noise_lines_safe_only x), hclean, hjoin]
  exact subNl3_id hnodrop

theorem noRunGe_of_no_mem {p : Char → Bool} {k : Nat} :
    ∀ {l : List Char}, (∀ a ∈ l, p a = false) → noRunGe p k l = true
  | [], _ => rfl
  | c :: t, h => by
    unfold noRunGe
    rw [noRunGeGo_neg (h c (List.mem_cons_self c t))]
    exact noRunGe_of_no_mem (fun a ha => h a (List.mem_cons_of_mem c ha))

/- On a single line (no boundary characters, no tabs) whose rstripped form
exceeds the safety threshold, the filter returns exactly the rstripped line:
the length guard bypasses all pattern matching. -/
theorem remove_noise_single_long {raw : List Char}
    (hb : ∀ c ∈ raw, isLineBoundary c = false ∧ c ≠ '\t')
    (hlen : 5000 < (pyRstrip raw).length) :
    remove_noise_lines_safe_only raw = pyRstrip raw := by
  have hraw_ne : raw ≠ [] := by
    intro h
    subst h
    simp [pyRstrip, List.dropWhile] at hlen
  have hnorm : normalize_newlines raw = raw :=
    normalize_newlines_id
      (fun h => by simpa [isLineBoundary] using (hb '\r' h).1)
      (fun h => (hb '\t' h).2 rfl)
  have hsplit : pySplitlines raw = [raw] := by
    unfold pySplitlines
    have habs := splitGo_absorb raw [] [] (fun a ha => (hb a ha).1)
    rw [List.append_nil] at habs
    rw [habs, splitGo_nil, if_neg (by simpa using hraw_ne)]
    rw [List.append_nil, List.reverse_reverse]
  have hcl : cleanLine raw = some (pyRstrip raw) := by
    unfold cleanLine
    rw [if_pos hlen]
  have hclean : cleanedOf raw = [pyRstrip raw] := by
    unfold cleanedOf
    rw [hnorm, hsplit]
    rw [List.filterMap_cons, hcl, List.filterMap_nil]
  rw [remove_noise_eq, hclean]
  show subNl3ToNl2 (pyRstrip raw) = pyRstrip raw
  refine subNl3_id (noRunGe_of_no_mem ?_)
  intro a ha
  have := (hb a (mem_pyRstrip ha)).1
  by_cases han : a = '\n'
  · subst han
    simp [isLineBoundary] at this
  · simpa using han

theorem dropWhile_ws_spaces :
    ∀ (n : Nat) (t : List Char),
      List.dropWhile isPySpace (List.replicate n ' ' ++ t) =
        List.dropWhile isPySpace t
  | 0, t => by rw [List.replicate_zero, List.nil_append]
  | n + 1, t => by
    rw [List.replicate_succ, List.cons_append, List.dropWhile_cons,
      if_pos (by decide)]
    exact dropWhile_ws_spaces n t

theorem pyRstrip_append_spaces (a : List Char) (n : Nat) :
    pyRstrip (a ++ List.replicate n ' ') = pyRstrip a := by
  unfold pyRstrip
  rw [List.reverse_append, List.reverse_replicate, dropWhile_ws_spaces]

theorem pyRstrip_replicate_a (n : Nat) :
    pyRstrip (List.replicate n 'a') = List.replicate n 'a' := by
  refine pyRstrip_eq_self_of_getLast ?_
  intro c hc
  cases n with
  | zero => simp at hc
  | succ m =>
    rw [List.replicate_succ', List.getLast?_concat] at hc
    rw [Option.some_inj.mp hc.symm]
    decide

/- ---------------------------------------------------------------------
Front matter: splitting lemmas.
--------------------------------------------------------------------- -/

theorem isPySpace_cases {c : Char} (h : isPySpace c = true) :
    c.toNat = 32 ∨ c.toNat = 9 ∨ c.toNat = 10 ∨ c.toNat = 13 ∨
    c.toNat = 11 ∨ c.toNat = 12 ∨ (28 ≤ c.toNat ∧ c.toNat ≤ 31) ∨
    c.toNat = 133 ∨ c.toNat = 160 ∨ c.toNat = 5760 ∨
    (8192 ≤ c.toNat ∧ c.toNat ≤ 8202) ∨ c.toNat = 8232 ∨ c.toNat = 8233 ∨
    c.toNat = 8239 ∨ c.toNat = 8287 ∨ c.toNat = 12288 := by
  simp only [isPySpace, Bool.or_eq_true, Bool.and_eq_true, beq_iff_eq,
    decide_eq_true_eq] at h
  omega

theorem isLineBoundary_cases {c : Char} (h : isLineBoundary c = true) :
    c.toNat = 10 ∨ c.toNat = 13 ∨ c.toNat = 11 ∨ c.toNat = 12 ∨
    c.toNat = 28 ∨ c.toNat = 29 ∨ c.toNat = 30 ∨ c.toNat = 133 ∨
    c.toNat = 8232 ∨ c.toNat = 8233 := by
  simp only [isLineBoundary, Bool.or_eq_true, beq_iff_eq] at h
  omega

theorem isLatinLetter_range {c : Char} (h : isLatinLetter c = true) :
    (65 ≤ c.toNat ∧ c.toNat ≤ 90) ∨ (97 ≤ c.toNat ∧ c.toNat ≤ 122) := by
  simp only [isLatinLetter, Bool.or_eq_true, Bool.and_eq_true,
    decide_eq_true_eq] at h
  omega

theorem char_ne_of_toNat {c d : Char} (h : c.toNat ≠ d.toNat) : c ≠ d := by
  intro h2
  subst h2
  exact h rfl

/- The facts about an ASCII letter needed below. -/
theorem latin_facts {c : Char} (h : isLatinLetter c = true) :
    isPySpace c = false ∧ isLineBoundary c = false ∧ c ≠ '-' ∧ c ≠ ':' ∧
    c ≠ '\n' ∧ c ≠ '\t' := by
  have hr := isLatinLetter_range h
  refine ⟨?_, ?_, ?_, ?_, ?_, ?_⟩
  · by_contra h2
    rw [Bool.not_eq_false] at h2
    have := isPySpace_cases h2
    omega
  · by_contra h2
    rw [Bool.not_eq_false] at h2
    have := isLineBoundary_cases h2
    omega
  · exact char_ne_of_toNat (by show c.toNat ≠ 45; omega)
  · exact char_ne_of_toNat (by show c.toNat ≠ 58; omega)
  · exact char_ne_of_toNat (by show c.toNat ≠ 10; omega)
  · exact char_ne_of_toNat (by show c.toNat ≠ 9; omega)

theorem plainScalar_parts {s : List Char} (h : plainScalar s = true) :
    s ≠ [] ∧ ∀ c ∈ s, isLatinLetter c = true := by
  unfold plainScalar at h
  rcases Bool.and_eq_true_iff.mp h with ⟨h1, _⟩
  rcases Bool.and_eq_true_iff.mp h1 with ⟨h2, h3⟩
  exact ⟨by simpa using h2, List.all_eq_true.mp h3⟩

/- splitFirst really splits. -/
theorem splitFirst_eq :
    ∀ {l sep a b : List Char}, splitFirst sep l = some (a, b) →
      l = a ++ sep ++ b
  | [], sep, a, b, h => by
    unfold splitFirst at h
    by_cases he : sep.isEmpty
    · rw [if_pos he] at h
      rw [List.isEmpty_iff.mp he]
      rcases Prod.mk.injEq _ _ _ _ ▸ Option.some_inj.mp h with ⟨h1, h2⟩
      rw [← h1, ← h2]
      rfl
    · rw [if_neg he] at h
      cases h
  | c :: rest, sep, a, b, h => by
    unfold splitFirst at h
    by_cases hp : List.isPrefixOf sep (c :: rest) = true
    · rw [if_pos hp] at h
      rcases Prod.mk.injEq _ _ _ _ ▸ Option.some_inj.mp h with ⟨h1, h2⟩
      rcases List.isPrefixOf_iff_prefix.mp hp with ⟨t, ht⟩
      rw [← h1, List.nil_append, ← h2, ← ht, List.drop_left]
  
    · rw [if_neg hp] at h
      rcases Option.map_eq_some'.mp h with ⟨p, hp2, hpe⟩
      have := splitFirst_eq (a := p.1) (b := p.2) (by rw [hp2])
      rcases Prod.mk.injEq _ _ _ _ ▸ hpe with ⟨h1, h2⟩
      rw [← h1, ← h2, List.cons_append, List.cons_append, ← this]

/- When no proper suffix of `a` starts a match of `sep`, splitting at the
explicit occurrence of `sep` is what splitFirst returns. -/
theorem splitFirst_append :
    ∀ (a : List Char) {sep b : List Char},
      (∀ a2, a2 ≠ [] → a2 <:+ a →
        List.isPrefixOf sep (a2 ++ sep ++ b) = false) →
      splitFirst sep (a ++ sep ++ b) = some (a, b)
  | [], sep, b, _ => by
    simp only [List.nil_append]
    cases sep with
    | nil =>
      show splitFirst [] b = some ([], b)
      cases b with
      | nil => rfl
      | cons c rest =>
        unfold splitFirst
        rw [if_pos (by rfl)]
        simp
    | cons s ss =>
      rw [List.cons_append]
      unfold splitFirst
      rw [if_pos ( List.isPrefixOf_iff_prefix.mpr ⟨b, by rw [List.cons_append]⟩)]
      rw [← List.cons_append, List.drop_left]
  | c :: a', sep, b, H => by
    rw [List.cons_append, List.cons_append]
    have hnp : List.isPrefixOf sep (c :: (a' ++ sep ++ b)) = false := by
      have := H (c :: a') (by simp) List.suffix_rfl
      rw [List.cons_append] at this
      exact this
    unfold splitFirst
    rw [if_neg (by
      intro hcon
      rw [hcon] at hnp
      cases hnp)]
    rw [splitFirst_append a'
      (fun a2 h2 hs => H a2 h2 (hs.trans (List.suffix_cons c a')))]
    rfl

theorem splitGo_true_nl (cur r : List Char) :
    pySplitlinesGo true cur ('\n' :: r) = pySplitlinesGo false cur r := rfl

theorem splitGo_cr (flag : Bool) (cur r : List Char) :
    pySplitlinesGo flag cur ('\r' :: r) =
      cur.reverse :: pySplitlinesGo true [] r := by
  cases flag <;> simp [pySplitlinesGo]

theorem splitGo_bound_any {c : Char} (flag : Bool)
    (hb : isLineBoundary c = true) (hnl : c ≠ '\n') (hcr : c ≠ '\r')
    (cur r : List Char) :
    pySplitlinesGo flag cur (c :: r) =
      cur.reverse :: pySplitlinesGo false [] r := by
  cases flag <;> simp [pySplitlinesGo, hb, hnl, hcr]

theorem splitGo_nonb_any {c : Char} (flag : Bool)
    (hb : isLineBoundary c = false) (cur r : List Char) :
    pySplitlinesGo flag cur (c :: r) = pySplitlinesGo false (c :: cur) r := by
  have hnl : c ≠ '\n' := by
    intro h
    subst h
    simp [isLineBoundary] at hb
  have hcr : c ≠ '\r' := not_lineBoundary_ne_cr hb
  cases flag <;> simp [pySplitlinesGo, hb, hnl, hcr]

/- A segment framed by two newlines is recovered as a line. -/
theorem line_mem_splitGo {m : List Char}
    (hm : ∀ c ∈ m, isLineBoundary c = false) :
    ∀ (a : List Char) (flag : Bool) (cur b : List Char),
      (flag = true → cur = []) →
      m ∈ pySplitlinesGo flag cur (a ++ '\n' :: (m ++ '\n' :: b))
  | [], flag, cur, b, hfc => by
    rw [List.nil_append]
    cases flag with
    | true =>
      rw [hfc rfl, splitGo_true_nl]
      have habs := splitGo_absorb m [] ('\n' :: b) hm
      rw [habs, List.append_nil, splitGo_nl, List.reverse_reverse]
      exact List.mem_cons_self _ _
    | false =>
      rw [splitGo_nl]
      have habs := splitGo_absorb m [] ('\n' :: b) hm
      rw [habs, List.append_nil, splitGo_nl, List.reverse_reverse]
      exact List.mem_cons_of_mem _ (List.mem_cons_self _ _)
  | c :: a', flag, cur, b, hfc => by
    rw [List.cons_append]
    by_cases hcr : c = '\r'
    · subst hcr
      rw [splitGo_cr]
      exact List.mem_cons_of_mem _
        (line_mem_splitGo hm a' true [] b (fun _ => rfl))
    · by_cases hnl : c = '\n'
      · subst hnl
        cases flag with
        | true =>
          rw [splitGo_true_nl]
          exact line_mem_splitGo hm a' false cur b (by intro h; cases h)
        | false =>
          rw [splitGo_nl]
          exact List.mem_cons_of_mem _
            (line_mem_splitGo hm a' false [] b (by intro h; cases h))
      · by_cases hb : isLineBoundary c = true
        · rw [splitGo_bound_any flag hb hnl hcr]
          exact List.mem_cons_of_mem _
            (line_mem_splitGo hm a' false [] b (by intro h; cases h))
        · rw [Bool.not_eq_true] at hb
          rw [splitGo_nonb_any flag hb]
          exact line_mem_splitGo hm a' false (c :: cur) b (by intro h; cases h)

/- Moreover it is never the first line when scanning starts in normal mode. -/
theorem line_mem_tail_splitGo {m : List Char}
    (hm : ∀ c ∈ m, isLineBoundary c = false) :
    ∀ (a : List Char) (cur b : List Char),
      m ∈ (pySplitlinesGo false cur (a ++ '\n' :: (m ++ '\n' :: b))).tail
  | [], cur, b => by
    rw [List.nil_append, splitGo_nl]
    have habs := splitGo_absorb m [] ('\n' :: b) hm
    rw [habs, List.append_nil, splitGo_nl, List.reverse_reverse]
    exact List.mem_cons_self _ _
  | c :: a', cur, b => by
    rw [List.cons_append]
    by_cases hcr : c = '\r'
    · subst hcr
      rw [splitGo_cr]
      exact line_mem_splitGo hm a' true [] b (fun _ => rfl)
    · by_cases hnl : c = '\n'
      · subst hnl
        rw [splitGo_nl]
        exact line_mem_splitGo hm a' false [] b (by intro h; cases h)
      · by_cases hb : isLineBoundary c = true
        · rw [splitGo_bound_any false hb hnl hcr]
          exact line_mem_splitGo hm a' false [] b (by intro h; cases h)
        · rw [Bool.not_eq_true] at hb
          rw [splitGo_nonb_any false hb]
          exact line_mem_tail_splitGo hm a' (c :: cur) b

/- If no line after the first is exactly "---", the front-matter splitter
leaves the text unchanged with an empty mapping. -/
theorem front_matter_no_close {t : List Char}
    (hpre : List.isPrefixOf ("---".data) t = true)
    (hno : ∀ l ∈ (pySplitlines t).tail, l ≠ "---".data) :
    strip_and_parse_front_matter t = (t, Yaml.map []) := by
  have hsplit : splitFirst ("\n---\n".data) t = none := by
    rcases hs : splitFirst ("\n---\n".data) t with _ | p
    · rfl
    · exfalso
      have heq := splitFirst_eq hs
      rcases List.isPrefixOf_iff_prefix.mp hpre with ⟨trest, htrest⟩
      cases hp1 : p.1 with
      | nil =>
        rw [hp1, List.nil_append] at heq
        rw [← htrest] at heq
        rw [show ("---".data : List Char) ++ trest =
          '-' :: ('-' :: '-' :: trest) from rfl] at heq
        rw [show ("\n---\n".data : List Char) ++ p.2 =
          '\n' :: ("---".data ++ '\n' :: p.2) from rfl] at heq
        injection heq with h1 _
        cases h1
      | cons c0 a =>
        have hsep : ("\n---\n".data : List Char) ++ p.2 =
            '\n' :: ("---".data ++ '\n' :: p.2) := rfl
        rw [hp1, List.append_assoc, hsep, List.cons_append] at heq
        have hc0 : c0 = '-' := by
          have heq2 := heq
          rw [← htrest] at heq2
          rw [show ("---".data : List Char) ++ trest =
            '-' :: ('-' :: '-' :: trest) from rfl] at heq2
          injection heq2 with h1 _
          exact h1.symm
        subst hc0
        have hmem := line_mem_tail_splitGo (m := "---".data)
          (by decide) a ['-'] p.2
        refine hno ("---".data) ?_ rfl
        unfold pySplitlines
        rw [heq, splitGo_nonb (by decide)]
        exact hmem
  unfold strip_and_parse_front_matter
  rw [hsplit, if_pos hpre]

theorem splitNlAll_no_nl :
    ∀ {l : List Char}, '\n' ∉ l → splitNlAll l = [l]
  | [], _ => rfl
  | c :: rest, h => by
    have hc : c ≠ '\n' := by
      intro h2
      exact h (by simp [h2])
    unfold splitNlAll
    rw [if_neg hc, splitNlAll_no_nl (fun h2 => h (List.mem_cons_of_mem c h2))]

/- In "---\n" ++ w with w newline-free, the only suffix starting with a
newline is '\n' :: w. -/
theorem nl_suffix_unique {w r2 : List Char} (hw : '\n' ∉ w)
    (hs : '\n' :: r2 <:+ ("---\n".data ++ w)) : r2 = w := by
  rcases hs with ⟨p, hp⟩
  rw [show ("---\n".data : List Char) ++ w =
    '-' :: ('-' :: ('-' :: ('\n' :: w))) from rfl] at hp
  cases p with
  | nil =>
    rw [List.nil_append] at hp
    injection hp with h1 _
    cases h1
  | cons c1 p1 =>
    rw [List.cons_append] at hp
    injection hp with h1 hp
    cases p1 with
    | nil =>
      rw [List.nil_append] at hp
      injection hp with h2 _
      cases h2
    | cons c2 p2 =>
      rw [List.cons_append] at hp
      injection hp with h2 hp
      cases p2 with
      | nil =>
        rw [List.nil_append] at hp
        injection hp with h3 _
        cases h3
      | cons c3 p3 =>
        rw [List.cons_append] at hp
        injection hp with h3 hp
        cases p3 with
        | nil =>
          rw [List.nil_append] at hp
          injection hp with h4 h5
        | cons c4 p4 =>
          rw [List.cons_append] at hp
          injection hp with h4 h5
          exfalso
          refine hw ?_
          rw [← h5]
          exact List.mem_append.mpr (Or.inr (List.mem_cons_self _ _))

theorem kv_no_nl {k v : List Char}
    (hkl : ∀ c ∈ k, isLatinLetter c = true)
    (hvl : ∀ c ∈ v, isLatinLetter c = true) :
    '\n' ∉ k ++ ": ".data ++ v := by
  intro h
  rcases List.mem_append.mp h with h2 | h2
  · rcases List.mem_append.mp h2 with h3 | h3
    · exact (latin_facts (hkl _ h3)).2.2.2.2.1 rfl
    · exact absurd h3 (by decide)
  · exact (latin_facts (hvl _ h2)).2.2.2.2.1 rfl

theorem fm_splitFirst {k v body : List Char}
    (hk : plainScalar k = true) (hv : plainScalar v = true) :
    splitFirst ("\n---\n".data)
      (("---\n".data ++ (k ++ ": ".data ++ v)) ++ "\n---\n".data ++ body) =
      some ("---\n".data ++ (k ++ ": ".data ++ v), body) := by
  rcases plainScalar_parts hk with ⟨hkne, hkl⟩
  rcases plainScalar_parts hv with ⟨_, hvl⟩
  have hwnl : '\n' ∉ k ++ ": ".data ++ v := kv_no_nl hkl hvl
  refine splitFirst_append _ ?_
  intro a2 h2ne h2s
  rcases List.exists_cons_of_ne_nil h2ne with ⟨c, r2, rfl⟩
  by_cases hcn : c = '\n'
  · subst hcn
    have hr2 : r2 = k ++ ": ".data ++ v := nl_suffix_unique hwnl h2s
    subst hr2
    rcases List.exists_cons_of_ne_nil hkne with ⟨kc, k', rfl⟩
    have hkcd : ('-' == kc) = false :=
      beq_eq_false_iff_ne.mpr (fun h => (latin_facts (hkl kc (by simp))).2.2.1 h.symm)
    rw [show (('\n' :: ((kc :: k') ++ ": ".data ++ v)) ++ "\n---\n".data ++ body) =
      '\n' :: (kc :: ((k' ++ ": ".data ++ v) ++ ("\n---\n".data ++ body)))
      from by simp] 
    simp [ List.isPrefixOf, hkcd]
  · have hce : (('\n' : Char) == c) = false :=
      beq_eq_false_iff_ne.mpr (fun h => hcn h.symm)
    rw [show ((c :: r2) ++ "\n---\n".data ++ body) =
      c :: (r2 ++ ("\n---\n".data ++ body)) from by simp]
    simp [ List.isPrefixOf, hce]

theorem fm_lstrip {w' : List Char} {wc : Char}
    (hwc : isLatinLetter wc = true) :
    pyLstripSet ['-', '\n'] ("---\n".data ++ wc :: w') = wc :: w' := by
  have e1 : (wc == '-') = false :=
    beq_eq_false_iff_ne.mpr (latin_facts hwc).2.2.1
  have e2 : (wc == '\n') = false :=
    beq_eq_false_iff_ne.mpr (latin_facts hwc).2.2.2.2.1
  unfold pyLstripSet
  rw [show ("---\n".data ++ wc :: w' : List Char) =
    '-' :: ('-' :: ('-' :: ('\n' :: (wc :: w')))) from rfl]
  rw [List.dropWhile_cons, if_pos (by decide)]
  rw [List.dropWhile_cons, if_pos (by decide)]
  rw [List.dropWhile_cons, if_pos (by decide)]
  rw [List.dropWhile_cons, if_pos (by decide)]
  rw [List.dropWhile_cons, if_neg (by simp [List.contains, List.elem, e1, e2])]

theorem fm_yaml {k v : List Char}
    (hk : plainScalar k = true) (hv : plainScalar v = true) :
    yaml_safe_load (k ++ ": ".data ++ v) = .ok (.map [(k, Yaml.str v)]) := by
  rcases plainScalar_parts hk with ⟨hkne, hkl⟩
  rcases plainScalar_parts hv with ⟨_, hvl⟩
  have hwnl : '\n' ∉ k ++ ": ".data ++ v := kv_no_nl hkl hvl
  have hparse : yamlParseLine (k ++ ": ".data ++ v) = some (k, Yaml.str v) := by
    unfold yamlParseLine
    rw [splitFirst_append k ?_]
    · show (if (plainScalar k && plainScalar v) = true
          then some (k, Yaml.str v) else none) = some (k, Yaml.str v)
      rw [hk, hv]
      rfl
    · intro a2 h2ne h2s
      rcases List.exists_cons_of_ne_nil h2ne with ⟨c, r2, rfl⟩
      have hc : isLatinLetter c = true :=
        hkl c (h2s.sublist.mem (List.mem_cons_self c r2))
      have hce : ((':' : Char) == c) = false :=
        beq_eq_false_iff_ne.mpr (fun h => (latin_facts hc).2.2.2.1 h.symm)
      rw [show ((c :: r2) ++ ": ".data ++ v) = c :: (r2 ++ (": ".data ++ v))
        from by simp]
      simp [ List.isPrefixOf, hce]
  rcases List.exists_cons_of_ne_nil hkne with ⟨kc, k', hkk⟩
  have hkcw : isPySpace kc = false :=
    (latin_facts (hkl kc (by rw [hkk]; exact List.mem_cons_self _ _))).1
  have hall : List.all (k ++ ": ".data ++ v) isPySpace = false := by
    rw [hkk, List.cons_append, List.cons_append, List.all_cons, hkcw]
    rfl
  unfold yaml_safe_load
  rw [splitNlAll_no_nl hwnl]
  rw [show (([k ++ ": ".data ++ v]).filter
      (fun l => !(List.all l isPySpace))) = [k ++ ": ".data ++ v] from by
    rw [List.filter_cons, if_pos (by rw [hall]; rfl), List.filter_nil]]
  show (match yamlParseLine (k ++ ": ".data ++ v) with
    | some kv => Except.ok (Yaml.map [kv])
    | none =>
      if plainScalar (pyStrip (k ++ ": ".data ++ v)) = true
      then Except.ok (Yaml.str (pyStrip (k ++ ": ".data ++ v)))
      else Except.error ()) = Except.ok (Yaml.map [(k, Yaml.str v)])
  rw [hparse]

/- The round trip for a plain `key: value` front-matter block. -/
theorem front_matter_round_trip {k v body : List Char}
    (hk : plainScalar k = true) (hv : plainScalar v = true) :
    strip_and_parse_front_matter
      (("---\n".data ++ (k ++ ": ".data ++ v)) ++ "\n---\n".data ++ body) =
      (body, Yaml.map [(k, Yaml.str v)]) := by
  rcases plainScalar_parts hk with ⟨hkne, hkl⟩
  rcases List.exists_cons_of_ne_nil hkne with ⟨kc, k', hkk⟩
  have hpre : List.isPrefixOf ("---".data)
      (("---\n".data ++ (k ++ ": ".data ++ v)) ++ "\n---\n".data ++ body) =
      true := by
    refine List.isPrefixOf_iff_prefix.mpr ?_
    refine ⟨('\n' :: (k ++ ": ".data ++ v)) ++ ("\n---\n".data ++ body), ?_⟩
    simp
  unfold strip_and_parse_front_matter
  rw [if_pos hpre, fm_splitFirst hk hv]
  show (body,
    (match yaml_safe_load (pyLstripSet ['-', '\n']
        ("---\n".data ++ (k ++ ": ".data ++ v))) with
      | .ok w => if yamlTruthy w = true then w else Yaml.map []
      | .error _ => Yaml.map [])) = (body, Yaml.map [(k, Yaml.str v)])
  rw [show ("---\n".data ++ (k ++ ": ".data ++ v) : List Char) =
    "---\n".data ++ (kc :: (k' ++ ": ".data ++ v)) from by rw [hkk]; simp]
  rw [fm_lstrip (hkl kc (by rw [hkk]; exact List.mem_cons_self _ _))]
  rw [show (kc :: (k' ++ ": ".data ++ v) : List Char) =
    k ++ ": ".data ++ v from by rw [hkk]; simp]
  rw [fm_yaml hk hv]
  rfl

/- ---------------------------------------------------------------------
Endpoint-level helper lemmas.
--------------------------------------------------------------------- -/

theorem orchestrate_ok_ne_nil :
    ∀ (e : List Char → ExtractArgs → Option (List Char)) (html t : List Char),
      orchestrateExtract e html = .ok t → t ≠ [] := by
  intro e html t h
  unfold orchestrateExtract at h
  rcases hf : e html fastCallArgs with _ | t0 <;> rw [hf] at h <;>
    simp only [] at h
  · rcases hr : e html retryCallArgs with _ | t2 <;> rw [hr] at h <;>
      simp only [] at h
    · exact Except.noConfusion h
    · by_cases he : t2.isEmpty = true
      · rw [if_pos he] at h
        exact Except.noConfusion h
      · rw [if_neg he] at h
        injection h with h2
        subst h2
        exact fun hn => he (by rw [hn]; rfl)
  · by_cases he0 : t0.isEmpty = true
    · rw [if_pos he0] at h
      rcases hr : e html retryCallArgs with _ | t2 <;> rw [hr] at h <;>
        simp only [] at h
      · exact Except.noConfusion h
      · by_cases he : t2.isEmpty = true
        · rw [if_pos he] at h
          exact Except.noConfusion h
        · rw [if_neg he] at h
          injection h with h2
          subst h2
          exact fun hn => he (by rw [hn]; rfl)
    · rw [if_neg he0] at h
      injection h with h2
      subst h2
      exact fun hn => he0 (by rw [hn]; rfl)

theorem endpoint_ok_structure :
    ∀ (fetch : FetchOutcome) (e : List Char → ExtractArgs → Option (List Char))
      (meta : List Char → Option HtmlMeta) (url : List Char) (tr : Bool)
      (out : ExtractOut),
      extract_endpoint fetch e meta url tr = .ok out →
      ∃ html t, fetch = .success html ∧ orchestrateExtract e html = .ok t ∧
        t ≠ [] ∧
        out.text = (if tr then collapse_newlines_to_spaces
            (remove_noise_lines_safe_only (strip_and_parse_front_matter t).1)
          else remove_noise_lines_safe_only (strip_and_parse_front_matter t).1) := by
  intro fetch e meta url tr out h
  cases fetch with
  | statusError code => exact Except.noConfusion h
  | requestError => exact Except.noConfusion h
  | success html =>
    rcases horch : orchestrateExtract e html with code | t
    · unfold extract_endpoint at h
      simp only [] at h
      rw [horch] at h
      exact Except.noConfusion h
    · refine ⟨html, t, rfl, horch, orchestrate_ok_ne_nil e html t horch, ?_⟩
      unfold extract_endpoint at h
      simp only [] at h
      rw [horch] at h
      simp only [] at h
      rcases hm : merge_metadata (meta html)
          (strip_and_parse_front_matter t).2 with u | m
      · simp only [hm] at h
        exact Except.noConfusion h
      · simp only [hm] at h
        injection h with h2
        rw [← h2]

theorem orFmGet_map (a : Option Yaml) (kvs : List (List Char × Yaml))
    (k : List Char) :
    orFmGet a (.map kvs) k = .ok (pyOr a (fmLookup kvs k)) := by
  unfold orFmGet fmGet pyOr fmLookup
  by_cases h : optYamlTruthy a = true
  · rw [if_pos h, if_pos h]
  · rw [if_neg h, if_neg h]

/- With a mapping front matter the merge never fails and computes the two
`or`-chains of the source. -/
theorem merge_metadata_map (md : Option HtmlMeta)
    (kvs : List (List Char × Yaml)) :
    merge_metadata md (.map kvs) = .ok
      (md.bind HtmlMeta.title,
       pyOr (pyOr ((md.bind HtmlMeta.date).map Yaml.str)
         (fmLookup kvs ("date".data))) (fmLookup kvs ("published_at".data)),
       pyOr (pyOr ((md.bind HtmlMeta.sitename).map Yaml.str)
         (fmLookup kvs ("site".data)))
         ((md.bind HtmlMeta.hostname).map Yaml.str)) := by
  unfold merge_metadata
  rw [orFmGet_map]
  simp only []
  rw [orFmGet_map]
  simp only []
  rw [orFmGet_map]
  simp only []
  rfl

theorem longLineA_chars : ∀ c ∈ longLineA, isLineBoundary c = false ∧ c ≠ '\t' := by
  intro c hc
  unfold longLineA at hc
  rcases List.mem_append.mp hc with h | h
  · rw [List.eq_of_mem_replicate h]
    exact ⟨by decide, by decide⟩
  · rw [List.mem_singleton.mp h]
    exact ⟨by decide, by decide⟩

theorem pyRstrip_longLineA : pyRstrip longLineA = List.replicate 5001 'a' := by
  unfold longLineA
  rw [show ([' '] : List Char) = List.replicate 1 ' ' from rfl,
    pyRstrip_append_spaces, pyRstrip_replicate_a]

theorem longLineA_len : 5000 < (pyRstrip longLineA).length := by
  rw [pyRstrip_longLineA, List.length_replicate]
  omega

theorem pyRstrip_paddedEmailLine :
    pyRstrip paddedEmailLine = "foo@bar.com".data := by
  unfold paddedEmailLine
  rw [pyRstrip_append_spaces]
  decide

theorem paddedEmailLine_len : 5000 < paddedEmailLine.length := by
  have : paddedEmailLine.length = 5011 := by
    rw [show paddedEmailLine =
      "foo@bar.com".data ++ List.replicate 5000 ' ' from rfl]
    rw [List.length_append, List.length_replicate]
    decide
  omega

theorem pyOr_none (b : Option Yaml) : pyOr none b = b := rfl

theorem pyOr_some_truthy {v : Yaml} (h : yamlTruthy v = true) (b : Option Yaml) :
    pyOr (some v) b = some v := by
  unfold pyOr
  rw [if_pos (by simpa [optYamlTruthy] using h)]

theorem str_truthy {d : List Char} (h : d ≠ []) :
    yamlTruthy (Yaml.str d) = true := by
  cases d with
  | nil => exact absurd rfl h
  | cons a t => rfl

/- ---------------------------------------------------------------------
The claims.
--------------------------------------------------------------------- -/

/-- C1 counterexample: a successful (200) response can carry an empty `text`.
The extractor returns the non-empty line "foo@bar.com", which the noise
filter then removes entirely, so the endpoint answers 200 with text = "". -/
theorem empty_text_success_counterexample :
    extract_endpoint (.success []) (fun _ _ => some ("foo@bar.com".data))
      (fun _ => none) [] false =
    .ok ⟨none, [], [], none, none⟩ := rfl

/-- C1 amended: the non-emptiness check runs only on the raw extraction
result.  On every 200 response the fetch succeeded and the extractor produced
non-empty text (both attempts empty gives 422 instead), and the final `text`
is that text after front-matter stripping, noise filtering and the optional
whitespace collapse — which may leave it empty. -/
theorem extract_text_nonempty_only_pre_cleaning :
    (∀ (e : List Char → ExtractArgs → Option (List Char)) (html t : List Char),
      orchestrateExtract e html = .ok t → t ≠ []) ∧
    (∀ fetch (e : List Char → ExtractArgs → Option (List Char))
       (meta : List Char → Option HtmlMeta) (url : List Char) (tr : Bool)
       (out : ExtractOut),
      extract_endpoint fetch e meta url tr = .ok out →
      ∃ html t, fetch = .success html ∧ orchestrateExtract e html = .ok t ∧
        t ≠ [] ∧
        out.text = (if tr then collapse_newlines_to_spaces
            (remove_noise_lines_safe_only (strip_and_parse_front_matter t).1)
          else remove_noise_lines_safe_only (strip_and_parse_front_matter t).1)) :=
  ⟨orchestrate_ok_ne_nil, endpoint_ok_structure⟩

/-- C1 witness: a concrete run of the amended statement. -/
theorem extract_text_nonempty_only_pre_cleaning_witness :
    (['a'] : List Char) ≠ [] :=
  extract_text_nonempty_only_pre_cleaning.1 (fun _ _ => some ['a']) [] ['a'] rfl

/-- C2 counterexample: the retry call does not keep the exclusions.  An
extractor that only yields content when tables are included returns nothing
on the first (fast, tables-excluded) call, yet the retry succeeds — under the
claimed "same exclusions" policy the request would have failed with 422.
The retry's keyword arguments are the library defaults, comments and tables
both included. -/
theorem retry_uses_library_defaults_counterexample :
    orchestrateExtract
      (fun _ args => if args.include_tables then some ['t'] else none) [] =
      .ok ['t'] ∧
    retryCallArgs.include_comments = true ∧
    retryCallArgs.include_tables = true :=
  ⟨rfl, rfl, rfl⟩

/-- C2 amended: the first extractor call uses the fast profile with comments
and tables excluded; when its result is absent or empty the single retry uses
the thorough profile with the library-default inclusion of comments and
tables (not the same exclusions); if both attempts are empty the request
fails with 422. -/
theorem orchestrate_two_phase_policy :
    fastCallArgs = ⟨false, false, true, true⟩ ∧
    retryCallArgs = ⟨true, true, false, true⟩ ∧
    (∀ (e : List Char → ExtractArgs → Option (List Char)) (html t : List Char),
      e html fastCallArgs = some t → t ≠ [] →
      orchestrateExtract e html = .ok t) ∧
    (∀ (e : List Char → ExtractArgs → Option (List Char)) (html t2 : List Char),
      optTextTruthy (e html fastCallArgs) = false →
      e html retryCallArgs = some t2 → t2 ≠ [] →
      orchestrateExtract e html = .ok t2) ∧
    (∀ (e : List Char → ExtractArgs → Option (List Char)) (html : List Char),
      optTextTruthy (e html fastCallArgs) = false →
      optTextTruthy (e html retryCallArgs) = false →
      orchestrateExtract e html = .error 422) := by
  refine ⟨rfl, rfl, ?_, ?_, ?_⟩
  · intro e html t hf hne
    unfold orchestrateExtract
    rw [hf]
    simp only []
    rw [if_neg (fun he => hne (List.isEmpty_iff.mp he))]
  · intro e html t2 hfal hr hne
    unfold orchestrateExtract
    rcases hf : e html fastCallArgs with _ | t0
    · simp only []
      rw [hr]
      simp only []
      rw [if_neg (fun he => hne (List.isEmpty_iff.mp he))]
    · rw [hf] at hfal
      have he0 : t0.isEmpty = true := by
        unfold optTextTruthy at hfal
        simpa using hfal
      simp only []
      rw [if_pos he0, hr]
      simp only []
      rw [if_neg (fun he => hne (List.isEmpty_iff.mp he))]
  · intro e html hfal hral
    unfold orchestrateExtract
    rcases hf : e html fastCallArgs with _ | t0
    · simp only []
      rcases hr : e html retryCallArgs with _ | t2
      · rfl
      · rw [hr] at hral
        have he2 : t2.isEmpty = true := by
          unfold optTextTruthy at hral
          simpa using hral
        simp only []
        rw [if_pos he2]
    · rw [hf] at hfal
      have he0 : t0.isEmpty = true := by
        unfold optTextTruthy at hfal
        simpa using hfal
      simp only []
      rw [if_pos he0]
      rcases hr : e html retryCallArgs with _ | t2
      · rfl
      · rw [hr] at hral
        have he2 : t2.isEmpty = true := by
          unfold optTextTruthy at hral
          simpa using hral
        simp only []
        rw [if_pos he2]

/-- C2 witness: the fast-success and both-empty branches at concrete
extractors. -/
theorem orchestrate_two_phase_policy_witness :
    orchestrateExtract (fun _ _ => some ['a']) [] = .ok ['a'] ∧
    orchestrateExtract (fun _ _ => none) [] = .error 422 :=
  ⟨orchestrate_two_phase_policy.2.2.1 (fun _ _ => some ['a']) [] ['a'] rfl
      (by decide),
   orchestrate_two_phase_policy.2.2.2.2 (fun _ _ => none) [] rfl rfl⟩

/-- C3 counterexample: a line longer than 5000 characters is not returned
unmodified — its trailing whitespace is stripped.  The 5002-character line of
5001 letters and one trailing space comes back as the 5001 letters. -/
theorem long_line_not_unmodified_counterexample :
    remove_noise_lines_safe_only longLineA = List.replicate 5001 'a' ∧
    remove_noise_lines_safe_only longLineA ≠ longLineA := by
  have heq : remove_noise_lines_safe_only longLineA = List.replicate 5001 'a' := by
    rw [remove_noise_single_long longLineA_chars longLineA_len,
      pyRstrip_longLineA]
  refine ⟨heq, ?_⟩
  rw [heq]
  intro h
  have := congrArg List.length h
  rw [List.length_replicate] at this
  unfold longLineA at this
  rw [List.length_append, List.length_replicate] at this
  simp at this

/-- C3 amended: a single line whose length after trailing-whitespace removal
exceeds 5000 characters bypasses all pattern matching and is kept, in its
trailing-whitespace-stripped form (the filter also normalises tabs and line
endings first, hence the single-line hypotheses). -/
theorem long_line_kept_rstripped (raw : List Char)
    (hb : ∀ c ∈ raw, isLineBoundary c = false ∧ c ≠ '\t')
    (hlen : 5000 < (pyRstrip raw).length) :
    remove_noise_lines_safe_only raw = pyRstrip raw :=
  remove_noise_single_long hb hlen

/-- C3 witness: the amended statement at the concrete long line. -/
theorem long_line_kept_rstripped_witness :
    5000 < (pyRstrip longLineA).length ∧
    remove_noise_lines_safe_only longLineA = pyRstrip longLineA :=
  ⟨longLineA_len, long_line_kept_rstripped longLineA longLineA_chars longLineA_len⟩

/-- C4 counterexample: the round trip is not exact for every key.  For the
key "-x" the leading hyphen is eaten by lstrip("-\n"), so the parsed mapping
key is "x", not "-x". -/
theorem front_matter_hyphen_key_counterexample :
    strip_and_parse_front_matter ("---\n-x: v\n---\nBODY".data) =
      ("BODY".data, Yaml.map [("x".data, Yaml.str ("v".data))]) ∧
    strip_and_parse_front_matter ("---\n-x: v\n---\nBODY".data) ≠
      ("BODY".data, Yaml.map [("-x".data, Yaml.str ("v".data))]) := by
  refine ⟨rfl, ?_⟩
  intro h
  have h2 := congrArg Prod.snd h
  have h3 : Yaml.map [("x".data, Yaml.str ("v".data))] =
      Yaml.map [("-x".data, Yaml.str ("v".data))] := h2
  injection h3 with h4
  injection h4 with h5 _
  injection h5 with h6 _
  exact absurd h6 (by decide)

/-- C4 amended: the round trip holds for plain scalars — a nonempty purely
alphabetic key and value with the key not beginning with a hyphen (hyphens
would be stripped) and neither word a YAML boolean/null keyword; and any text
that begins with the opening delimiter but has no subsequent "---" line comes
back unchanged with an empty mapping. -/
theorem front_matter_round_trip_plain :
    (∀ k v body : List Char, plainScalar k = true → plainScalar v = true →
      strip_and_parse_front_matter
        (("---\n".data ++ (k ++ ": ".data ++ v)) ++ "\n---\n".data ++ body) =
        (body, Yaml.map [(k, Yaml.str v)])) ∧
    (∀ t : List Char, List.isPrefixOf ("---".data) t = true →
      (∀ l ∈ (pySplitlines t).tail, l ≠ "---".data) →
      strip_and_parse_front_matter t = (t, Yaml.map [])) :=
  ⟨fun _ _ _ hk hv => front_matter_round_trip hk hv,
   fun _ hp hno => front_matter_no_close hp hno⟩

/-- C4 witness: the round trip at key "a", value "b", body "B", and the
no-closing-delimiter case at a concrete text. -/
theorem front_matter_round_trip_plain_witness :
    strip_and_parse_front_matter
      (("---\n".data ++ ("a".data ++ ": ".data ++ "b".data)) ++
        "\n---\n".data ++ "B".data) =
      ("B".data, Yaml.map [("a".data, Yaml.str ("b".data))]) ∧
    strip_and_parse_front_matter ("---\nno close".data) =
      ("---\nno close".data, Yaml.map []) :=
  ⟨front_matter_round_trip_plain.1 ("a".data) ("b".data) ("B".data)
      (by decide) (by decide),
   front_matter_round_trip_plain.2 ("---\nno close".data) (by decide)
      (by decide)⟩

/-- C5 code bug: the splitter's second result is not always a mapping.  A
front-matter block consisting of the bare scalar "hello" is returned as the
YAML string "hello" — contradicting the function's own `tuple[str, dict]`
annotation — and the endpoint then crashes (fm.get on a str raises
AttributeError, an unhandled 500) instead of degrading. -/
theorem front_matter_scalar_not_mapping :
    strip_and_parse_front_matter ("---\nhello\n---\nBODY".data) =
      ("BODY".data, Yaml.str ("hello".data)) ∧
    (∀ kvs, Yaml.str ("hello".data) ≠ Yaml.map kvs) ∧
    extract_endpoint (.success [])
      (fun _ _ => some ("---\nhello\n---\nBODY".data))
      (fun _ => none) [] false = .error .pythonError :=
  ⟨rfl, fun _ h => Yaml.noConfusion h, rfl⟩

/-- C6: an upstream HTTP error status is passed through as the response
status, and a network-level fetch failure maps to 504; in both cases the
result does not depend on the extractor or metadata collaborators, because
the error is raised before extraction is attempted. -/
theorem fetch_error_status_mapping :
    (∀ (e : List Char → ExtractArgs → Option (List Char))
       (meta : List Char → Option HtmlMeta) (url : List Char) (tr : Bool)
       (code : Nat),
      extract_endpoint (.statusError code) e meta url tr =
        .error (.http code)) ∧
    (∀ (e : List Char → ExtractArgs → Option (List Char))
       (meta : List Char → Option HtmlMeta) (url : List Char) (tr : Bool),
      extract_endpoint .requestError e meta url tr = .error (.http 504)) :=
  ⟨fun _ _ _ _ _ => rfl, fun _ _ _ _ => rfl⟩

/-- C7 counterexample: the Noise-Line Filter is not idempotent.  On
"a\n\n\n" one pass yields "a\n\n" but a second pass yields "a\n". -/
theorem noise_filter_not_idempotent_counterexample :
    remove_noise_lines_safe_only
        (remove_noise_lines_safe_only ("a\n\n\n".data)) ≠
      remove_noise_lines_safe_only ("a\n\n\n".data) := by decide

/-- C7 amended: a second pass of the Noise-Line Filter differs from the
first only by removing a single trailing newline; in particular the filter
is idempotent exactly on the outputs that do not end in a newline. -/
theorem noise_filter_second_pass_drops_final_newline (x : List Char) :
    remove_noise_lines_safe_only (remove_noise_lines_safe_only x) =
      dropFinalNl (remove_noise_lines_safe_only x) :=
  remove_noise_pass2 x

/-- C8: the Whitespace Collapser is idempotent, and its output contains no
newline and no two consecutive spaces. -/
theorem whitespace_collapser_props (s : List Char) :
    collapse_newlines_to_spaces (collapse_newlines_to_spaces s) =
      collapse_newlines_to_spaces s ∧
    '\n' ∉ collapse_newlines_to_spaces s ∧
    noRunGe (fun c => c == ' ') 2 (collapse_newlines_to_spaces s) = true := by
  refine ⟨collapse_idem s, collapse_no_nl s, ?_⟩
  refine noRunGe_imp ?_ _ (Nat.le_refl 0) (collapse_noDoubleWs s)
  intro c hc
  have h2 : c = ' ' := by simpa using hc
  rw [h2]
  decide

/-- C9: the metadata merge follows the stated precedence for every
combination of present and absent sources (taking a present field to carry a
truthy value, as Python's `or` requires): published_at is HtmlMetadata.date,
else FrontMatter["date"], else FrontMatter["published_at"]; site is
HtmlMetadata.sitename, else FrontMatter["site"], else HtmlMetadata.hostname;
title comes only from HtmlMetadata.title; each field is null when no source
provides it. -/
theorem metadata_merge_precedence :
    (∀ (md : Option HtmlMeta) (kvs : List (List Char × Yaml)) r,
      merge_metadata md (.map kvs) = .ok r →
      r.1 = md.bind HtmlMeta.title) ∧
    (∀ (md : Option HtmlMeta) kvs (d : List Char) r,
      md.bind HtmlMeta.date = some d → d ≠ [] →
      merge_metadata md (.map kvs) = .ok r →
      r.2.1 = some (Yaml.str d)) ∧
    (∀ (md : Option HtmlMeta) kvs (v : Yaml) r,
      md.bind HtmlMeta.date = none →
      fmLookup kvs ("date".data) = some v → yamlTruthy v = true →
      merge_metadata md (.map kvs) = .ok r →
      r.2.1 = some v) ∧
    (∀ (md : Option HtmlMeta) kvs (v : Yaml) r,
      md.bind HtmlMeta.date = none →
      fmLookup kvs ("date".data) = none →
      fmLookup kvs ("published_at".data) = some v → yamlTruthy v = true →
      merge_metadata md (.map kvs) = .ok r →
      r.2.1 = some v) ∧
    (∀ (md : Option HtmlMeta) kvs r,
      md.bind HtmlMeta.date = none →
      fmLookup kvs ("date".data) = none →
      fmLookup kvs ("published_at".data) = none →
      merge_metadata md (.map kvs) = .ok r →
      r.2.1 = none) ∧
    (∀ (md : Option HtmlMeta) kvs (s : List Char) r,
      md.bind HtmlMeta.sitename = some s → s ≠ [] →
      merge_metadata md (.map kvs) = .ok r →
      r.2.2 = some (Yaml.str s)) ∧
    (∀ (md : Option HtmlMeta) kvs (v : Yaml) r,
      md.bind HtmlMeta.sitename = none →
      fmLookup kvs ("site".data) = some v → yamlTruthy v = true →
      merge_metadata md (.map kvs) = .ok r →
      r.2.2 = some v) ∧
    (∀ (md : Option HtmlMeta) kvs r,
      md.bind HtmlMeta.sitename = none →
      fmLookup kvs ("site".data) = none →
      merge_metadata md (.map kvs) = .ok r →
      r.2.2 = (md.bind HtmlMeta.hostname).map Yaml.str) := by
  refine ⟨?_, ?_, ?_, ?_, ?_, ?_, ?_, ?_⟩
  · intro md kvs r hm
    rw [merge_metadata_map] at hm
    injection hm with h2
    rw [← h2]
  · intro md kvs d r hd hne hm
    rw [merge_metadata_map] at hm
    injection hm with h2
    rw [← h2]
    show pyOr (pyOr ((md.bind HtmlMeta.date).map Yaml.str)
      (fmLookup kvs ("date".data))) (fmLookup kvs ("published_at".data)) =
      some (Yaml.str d)
    rw [hd]
    rw [show (some d).map Yaml.str = some (Yaml.str d) from rfl]
    rw [pyOr_some_truthy (str_truthy hne), pyOr_some_truthy (str_truthy hne)]
  · intro md kvs v r hd hlook htr hm
    rw [merge_metadata_map] at hm
    injection hm with h2
    rw [← h2]
    show pyOr (pyOr ((md.bind HtmlMeta.date).map Yaml.str)
      (fmLookup kvs ("date".data))) (fmLookup kvs ("published_at".data)) =
      some v
    rw [hd, show (Option.map Yaml.str none : Option Yaml) = none from rfl,
      pyOr_none, hlook, pyOr_some_truthy htr]
  · intro md kvs v r hd hl1 hl2 htr hm
    rw [merge_metadata_map] at hm
    injection hm with h2
    rw [← h2]
    show pyOr (pyOr ((md.bind HtmlMeta.date).map Yaml.str)
      (fmLookup kvs ("date".data))) (fmLookup kvs ("published_at".data)) =
      some v
    rw [hd, show (Option.map Yaml.str none : Option Yaml) = none from rfl,
      pyOr_none, hl1, pyOr_none, hl2]
  · intro md kvs r hd hl1 hl2 hm
    rw [merge_metadata_map] at hm
    injection hm with h2
    rw [← h2]
    show pyOr (pyOr ((md.bind HtmlMeta.date).map Yaml.str)
      (fmLookup kvs ("date".data))) (fmLookup kvs ("published_at".data)) =
      none
    rw [hd, show (Option.map Yaml.str none : Option Yaml) = none from rfl,
      pyOr_none, hl1, pyOr_none, hl2]
  · intro md kvs s r hs hne hm
    rw [merge_metadata_map] at hm
    injection hm with h2
    rw [← h2]
    show pyOr (pyOr ((md.bind HtmlMeta.sitename).map Yaml.str)
      (fmLookup kvs ("site".data))) ((md.bind HtmlMeta.hostname).map Yaml.str) =
      some (Yaml.str s)
    rw [hs, show (some s).map Yaml.str = some (Yaml.str s) from rfl,
      pyOr_some_truthy (str_truthy hne), pyOr_some_truthy (str_truthy hne)]
  · intro md kvs v r hs hlook htr hm
    rw [merge_metadata_map] at hm
    injection hm with h2
    rw [← h2]
    show pyOr (pyOr ((md.bind HtmlMeta.sitename).map Yaml.str)
      (fmLookup kvs ("site".data))) ((md.bind HtmlMeta.hostname).map Yaml.str) =
      some v
    rw [hs, show (Option.map Yaml.str none : Option Yaml) = none from rfl,
      pyOr_none, hlook, pyOr_some_truthy htr]
  · intro md kvs r hs hlook hm
    rw [merge_metadata_map] at hm
    injection hm with h2
    rw [← h2]
    show pyOr (pyOr ((md.bind HtmlMeta.sitename).map Yaml.str)
      (fmLookup kvs ("site".data))) ((md.bind HtmlMeta.hostname).map Yaml.str) =
      (md.bind HtmlMeta.hostname).map Yaml.str
    rw [hs, show (Option.map Yaml.str none : Option Yaml) = none from rfl,
      pyOr_none, hlook, pyOr_none]

/-- C9 witness: the spec's two examples.  With HtmlMetadata.date 2024-01-01
and FrontMatter date 2024-02-02, published_at is 2024-01-01; with
HtmlMetadata absent it is 2024-02-02. -/
theorem metadata_merge_precedence_witness :
    ((none : Option (List Char)), some (Yaml.str ("2024-01-01".data)),
      (none : Option Yaml)).2.1 = some (Yaml.str ("2024-01-01".data)) ∧
    ((none : Option (List Char)), some (Yaml.str ("2024-02-02".data)),
      (none : Option Yaml)).2.1 = some (Yaml.str ("2024-02-02".data)) :=
  ⟨metadata_merge_precedence.2.1
      (some ⟨none, some ("2024-01-01".data), none, none⟩)
      [("date".data, Yaml.str ("2024-02-02".data))]
      ("2024-01-01".data) _ rfl (by decide) rfl,
   metadata_merge_precedence.2.2.1 none
      [("date".data, Yaml.str ("2024-02-02".data))]
      (Yaml.str ("2024-02-02".data)) _ rfl rfl (by decide) rfl⟩

/-- C10: every line of the Noise-Line Filter output has had its trailing
whitespace removed (long lines included), and the 5000-character guard is
evaluated on the rstripped length: a raw line over 5000 characters whose
rstripped form is short and matches a pattern is still removed. -/
theorem noise_filter_lines_rstripped_guard :
    (∀ x l : List Char, l ∈ pySplitlines (remove_noise_lines_safe_only x) →
      pyRstrip l = l) ∧
    (∀ raw : List Char, 5000 < raw.length → (pyRstrip raw).length ≤ 5000 →
      matchesNoise (pyRstrip raw) = true → cleanLine raw = none) ∧
    (∀ raw : List Char, 5000 < (pyRstrip raw).length →
      cleanLine raw = some (pyRstrip raw)) := by
  refine ⟨?_, ?_, ?_⟩
  · intro x l hl
    exact (cleanLine_eq_some (remove_noise_lines_kept hl)).symm
  · intro raw _ hshort hmatch
    simp only [cleanLine]
    rw [if_neg (by omega), if_pos hmatch]
  · intro raw hlong
    simp only [cleanLine]
    rw [if_pos hlong]

/-- C10 witness: a kept line is rstrip-fixed, and the concrete 5011-character
line "foo@bar.com" plus 5000 spaces is removed by the pattern check on its
rstripped form. -/
theorem noise_filter_lines_rstripped_guard_witness :
    pyRstrip ("hi".data) = "hi".data ∧ cleanLine paddedEmailLine = none := by
  constructor
  · exact noise_filter_lines_rstripped_guard.1 ("hi \nok".data) ("hi".data)
      (by decide)
  · exact noise_filter_lines_rstripped_guard.2.1 paddedEmailLine
      paddedEmailLine_len
      (by rw [pyRstrip_paddedEmailLine]; decide)
      (by rw [pyRstrip_paddedEmailLine]; decide)
